import Mathlib

/-!
# PCFG `parse` (src/parse.c): classification and segmentation of a word

A shallow embedding of the C function `gramm parse(char* word)` and a
verification of its documented properties.

Modelling conventions
* A `char` is a natural number (its byte value); `'\0'` is `0`, `'L'` is `76`,
  `'D'` is `68`, `'S'` is `83`.
* A C array is a `List Nat` whose length is the array's capacity.  Every array
  access is checked: an access outside the array is undefined behaviour in C
  and is the result `Except.error Err.oob` here.
* `parse.h` is not part of the sources, so the capacities it declares
  (`TERM_T`, the size of `g.base`, the number of rows of `g.terms`) are
  parameters (`Caps`).  The local `gramm g` is not initialised by the code: its
  initial contents `g0` are an arbitrary parameter of `parse`.
* The `int` counters `i`, `chain_length` and `g.nbterms` are natural numbers;
  on every run that stays in bounds they are bounded by the capacities.
* The input `word` is the list of the bytes that precede the terminator, so
  `word[i]` is `word.getD i 0`.
-/

namespace PCFG

/-! ## Data model -/

/-- The capacities declared in `parse.h`: `TERM_T` (size of the local `term`
buffer and of each row of `g.terms`), `BASE_T` (size of `g.base`) and
`NB_TERMS` (number of rows of `g.terms`). -/
structure Caps where
  TERM_T : Nat
  BASE_T : Nat
  NB_TERMS : Nat
deriving DecidableEq, Repr

/-- How a run of the code can fail: an array access out of bounds, or the
iteration budget of the loop model exhausted. -/
inductive Err where
  | oob
  | fuel
deriving DecidableEq, Repr

deriving instance DecidableEq for Except

/-- The result type `gramm` of `parse.h`: the class string `base`, the table of
terms `terms` and the number of terms `nbterms`. -/
structure gramm where
  base : List Nat
  terms : List (List Nat)
  nbterms : Nat
deriving DecidableEq, Repr

/-- The local variables of `parse` that live across loop iterations. -/
structure St where
  g : gramm
  i : Nat
  chain_length : Nat
  term : List Nat
deriving DecidableEq, Repr

/-! ## C primitives -/

/-- Array read `a[i]`. -/
def load (a : List Nat) (i : Nat) : Except Err Nat :=
  match a[i]? with
  | some v => .ok v
  | none => .error .oob

/-- Array write `a[i] = v`. -/
def store (a : List Nat) (i : Nat) (v : Nat) : Except Err (List Nat) :=
  if i < a.length then .ok (a.set i v) else .error .oob

/-- The call `memset(a, v, n)`: the first `n` bytes of `a` become `v`. -/
def memset (a : List Nat) (v : Nat) (n : Nat) : Except Err (List Nat) :=
  if n ≤ a.length then .ok (List.replicate n v ++ a.drop n) else .error .oob

/-- The call `strcpy(dst, src)`: bytes of `src` are copied up to and including
the first zero byte.  Running off the end of either array is out of bounds. -/
def strcpy : List Nat → List Nat → Except Err (List Nat)
  | _, [] => .error .oob
  | [], _ :: _ => .error .oob
  | _ :: dst, b :: src =>
    if b = 0 then .ok (0 :: dst)
    else match strcpy dst src with
      | .ok r => .ok (b :: r)
      | .error e => .error e

/-- Row selection `g.terms[k]` (the address passed to `strcpy`). -/
def loadRow (t : List (List Nat)) (k : Nat) : Except Err (List Nat) :=
  match t[k]? with
  | some r => .ok r
  | none => .error .oob

/-- The read `word[i]`; index `word.length` holds the terminator. -/
def wordAt (word : List Nat) (i : Nat) : Nat := word.getD i 0

/-- The C string held at the start of an array: the bytes before the first
zero byte. -/
def cstr (a : List Nat) : List Nat := a.takeWhile (fun b => b != 0)

/-- The terms of a result: the C strings of the first `nbterms` rows. -/
def termsOf (g : gramm) : List (List Nat) := (g.terms.take g.nbterms).map cstr

/-! ## The function `parse` -/

/-- Lines 14 to 17: the byte written to `g.base[i]` for the character `c`. -/
def classify (c : Nat) : Nat :=
  if 97 ≤ c ∧ c ≤ 122 then 76
  else if 65 ≤ c ∧ c ≤ 90 then 76
  else if 48 ≤ c ∧ c ≤ 57 then 68
  else 83

/-- Line 18: the test `i > 0 && (g.base[i] != g.base[i-1])`. -/
def classChange (base : List Nat) (i : Nat) : Except Err Bool :=
  if 0 < i then do
    let cur ← load base i
    let prev ← load base (i - 1)
    pure (cur != prev)
  else pure false

/-- Lines 19 to 23: the term in progress is copied to `g.terms[g.nbterms]` and
the buffer is cleared. -/
def flush (c : Caps) (s : St) : Except Err St := do
  let term ← store s.term (s.i + 1) 0
  let row ← loadRow s.g.terms s.g.nbterms
  let row ← strcpy row term
  let term ← memset term 0 c.TERM_T
  pure { g := { base := s.g.base, terms := s.g.terms.set s.g.nbterms row,
                nbterms := s.g.nbterms + 1 },
         i := s.i, chain_length := 0, term := term }

/-- Lines 13 to 27: one iteration of the `while` loop. -/
def body (c : Caps) (word : List Nat) (s : St) : Except Err St := do
  let ch := wordAt word s.i
  let base ← store s.g.base s.i (classify ch)
  let s1 : St := { s with g := { s.g with base := base } }
  let change ← classChange base s.i
  let s2 ← if change then flush c s1 else pure s1
  let term ← store s2.term s2.chain_length ch
  pure { s2 with term := term, chain_length := s2.chain_length + 1, i := s2.i + 1 }

/-- Lines 12 to 28: the `while` loop, with an iteration budget. -/
def loop (c : Caps) (word : List Nat) : Nat → St → Except Err St
  | 0, _ => .error .fuel
  | n + 1, s =>
    if wordAt word s.i != 0 then
      match body c word s with
      | .ok s1 => loop c word n s1
      | .error e => .error e
    else .ok s

/-- Lines 5 to 11: the state on entry to the loop.  `g0` is the indeterminate
initial content of the local `g`, `term0` that of the local `term`. -/
def enter (c : Caps) (g0 : gramm) (term0 : List Nat) : Except Err St := do
  let term ← memset term0 0 c.TERM_T
  pure { g := { g0 with nbterms := 0 }, i := 0, chain_length := 0, term := term }

/-- Lines 29 to 32: the last term is copied and the class string terminated. -/
def finish (s : St) : Except Err gramm := do
  let row ← loadRow s.g.terms s.g.nbterms
  let row ← strcpy row s.term
  let base ← store s.g.base s.i 0
  pure { base := base, terms := s.g.terms.set s.g.nbterms row,
         nbterms := s.g.nbterms + 1 }

/-- The function `parse`.  The local array `term` has `TERM_T` cells whose
initial content is indeterminate and is overwritten by line 11 before any read,
so it starts here as `TERM_T` cells of the byte `205`. -/
def parse (c : Caps) (g0 : gramm) (word : List Nat) : Except Err gramm := do
  let s0 ← enter c g0 (List.replicate c.TERM_T 205)
  let s ← loop c word (word.length + 1) s0
  finish s

/-- The variable `g` has the layout fixed by the capacities. -/
def WellSized (c : Caps) (g0 : gramm) : Prop :=
  g0.base.length = c.BASE_T ∧ g0.terms.length = c.NB_TERMS ∧
    ∀ row ∈ g0.terms, row.length = c.TERM_T

/-- A blank `gramm` of the right layout, every byte being `v`. -/
def blank (c : Caps) (v : Nat) : gramm :=
  { base := List.replicate c.BASE_T v,
    terms := List.replicate c.NB_TERMS (List.replicate c.TERM_T v),
    nbterms := v }

/-- ASCII text as bytes. -/
def bytes (s : String) : List Nat := s.toList.map Char.toNat

/-- The number of positions `i` with `0 < i < length w` at which the class of
`w[i]` differs from the class of `w[i-1]`. -/
def changes : List Nat → Nat
  | a :: b :: rest => (if classify a = classify b then 0 else 1) + changes (b :: rest)
  | _ => 0

/-- The content of a C string: no byte before the terminator is zero. -/
def CString (w : List Nat) : Prop := ∀ b ∈ w, b ≠ 0

/-- The word fits the fixed buffers: with its terminator it fits `term` and
`g.base`, and its runs (one more than its class changes) fit the rows of
`g.terms`. -/
def Fits (c : Caps) (w : List Nat) : Prop :=
  w.length < c.TERM_T ∧ w.length < c.BASE_T ∧ changes w + 1 ≤ c.NB_TERMS

instance (w : List Nat) : Decidable (CString w) :=
  inferInstanceAs (Decidable (∀ b ∈ w, b ≠ 0))

instance (c : Caps) (w : List Nat) : Decidable (Fits c w) :=
  inferInstanceAs
    (Decidable (w.length < c.TERM_T ∧ w.length < c.BASE_T ∧ changes w + 1 ≤ c.NB_TERMS))

instance (c : Caps) (g0 : gramm) : Decidable (WellSized c g0) :=
  inferInstanceAs (Decidable (g0.base.length = c.BASE_T ∧ g0.terms.length = c.NB_TERMS ∧
    ∀ row ∈ g0.terms, row.length = c.TERM_T))

/-- The maximal runs of consecutive characters of one class, in order. -/
def runs : List Nat → List (List Nat)
  | [] => []
  | a :: rest =>
    match runs rest with
    | (b :: r) :: rs =>
      if classify a = classify b then (a :: b :: r) :: rs else [a] :: (b :: r) :: rs
    | _ => [[a]]

/-! ## The code without line 19 -/

/-- Lines 20 to 23: the flush with the write `term[i+1] = 0` of line 19 removed. -/
def flush_no19 (c : Caps) (s : St) : Except Err St := do
  let row ← loadRow s.g.terms s.g.nbterms
  let row ← strcpy row s.term
  let term ← memset s.term 0 c.TERM_T
  pure { g := { base := s.g.base, terms := s.g.terms.set s.g.nbterms row,
                nbterms := s.g.nbterms + 1 },
         i := s.i, chain_length := 0, term := term }

/-- One iteration of the loop, line 19 removed. -/
def body_no19 (c : Caps) (word : List Nat) (s : St) : Except Err St := do
  let ch := wordAt word s.i
  let base ← store s.g.base s.i (classify ch)
  let s1 : St := { s with g := { s.g with base := base } }
  let change ← classChange base s.i
  let s2 ← if change then flush_no19 c s1 else pure s1
  let term ← store s2.term s2.chain_length ch
  pure { s2 with term := term, chain_length := s2.chain_length + 1, i := s2.i + 1 }

/-- The loop, line 19 removed. -/
def loop_no19 (c : Caps) (word : List Nat) : Nat → St → Except Err St
  | 0, _ => .error .fuel
  | n + 1, s =>
    if wordAt word s.i != 0 then
      match body_no19 c word s with
      | .ok s1 => loop_no19 c word n s1
      | .error e => .error e
    else .ok s

/-- The function `parse`, line 19 removed. -/
def parse_no19 (c : Caps) (g0 : gramm) (word : List Nat) : Except Err gramm := do
  let s0 ← enter c g0 (List.replicate c.TERM_T 205)
  let s ← loop_no19 c word (word.length + 1) s0
  finish s

/-! ## The algorithm of the specification (section 4.1) -/

/-- The class of a character (specification, section 3). -/
inductive ClassTag where
  | Letter
  | Digit
  | Separator
deriving DecidableEq, Repr

/-- The ClassTag rule: ASCII `a`-`z` or `A`-`Z` is a letter, `0`-`9` a digit,
anything else a separator. -/
def tagOf (ch : Nat) : ClassTag :=
  if (97 ≤ ch ∧ ch ≤ 122) ∨ (65 ≤ ch ∧ ch ≤ 90) then .Letter
  else if 48 ≤ ch ∧ ch ≤ 57 then .Digit
  else .Separator

/-- The character by which the reference encodes a class tag. -/
def tagChar : ClassTag → Nat
  | .Letter => 76
  | .Digit => 68
  | .Separator => 83

/-- The state of the specified scan: the classes so far, the terms completed
so far and the current term buffer. -/
structure Acc where
  classes : List ClassTag
  terms : List (List Nat)
  buf : List Nat
deriving DecidableEq, Repr

/-- Step 2 of the algorithm at position `i = length classes`: compute the
class; if `i > 0` and it differs from `classes[i-1]`, append the buffer to the
terms and clear it; append the character to the buffer. -/
def specStep (a : Acc) (ch : Nat) : Acc :=
  let i := a.classes.length
  let t := tagOf ch
  if 0 < i ∧ a.classes[i - 1]? ≠ some t then
    { classes := a.classes ++ [t], terms := a.terms ++ [a.buf], buf := [ch] }
  else
    { classes := a.classes ++ [t], terms := a.terms, buf := a.buf ++ [ch] }

/-- The scan of the specified algorithm over a word, from the empty state. -/
def specScan (w : List Nat) : Acc := w.foldl specStep ⟨[], [], []⟩

/-- The entity produced by the specified algorithm. -/
structure ParseResult where
  classes : List ClassTag
  terms : List (List Nat)
deriving DecidableEq, Repr

/-- The algorithm of section 4.1: scan, then step 3, the unconditional flush of
the final buffer. -/
def specParse (w : List Nat) : ParseResult :=
  let a := specScan w
  { classes := a.classes, terms := a.terms ++ [a.buf] }

/-- Two terms whose characters never share a class. -/
def Differ (t u : List Nat) : Prop := ∀ x ∈ t, ∀ y ∈ u, classify x ≠ classify y

/-- All characters of a term have one class. -/
def Homogeneous (t : List Nat) : Prop := ∀ x ∈ t, ∀ y ∈ t, classify x = classify y

/-! ## Invariant and simulation relations -/

/-- What holds of the scan state `a` once the prefix `pre` has been read. -/
structure Inv (pre : List Nat) (a : Acc) : Prop where
  classes_eq : a.classes = pre.map tagOf
  join_eq : a.terms.flatten ++ a.buf = pre
  buf_tag : ∀ x ∈ a.buf, a.classes.getLast? = some (tagOf x)
  buf_ne : pre ≠ [] → a.buf ≠ []
  terms_ne : ∀ t ∈ a.terms, t ≠ []
  homog : ∀ t ∈ a.terms, Homogeneous t
  chain : List.Chain' Differ a.terms
  last_diff : ∀ t, a.terms.getLast? = some t → Differ t a.buf
  count : a.terms.length = changes pre

/-- The program state `s` represents the scan state `a`. -/
structure Sim (c : Caps) (s : St) (a : Acc) : Prop where
  i_eq : s.i = a.classes.length
  base_len : s.g.base.length = c.BASE_T
  base_eq : s.g.base.take s.i = a.classes.map tagChar
  term_eq : s.term = a.buf ++ List.replicate (c.TERM_T - a.buf.length) 0
  chain_eq : s.chain_length = a.buf.length
  nb_eq : s.g.nbterms = a.terms.length
  rows_len : s.g.terms.length = c.NB_TERMS
  row_len : ∀ row ∈ s.g.terms, row.length = c.TERM_T
  rows_eq : (s.g.terms.take s.g.nbterms).map cstr = a.terms

/-! ## Notions used by the behaviour claims -/

/-- The offsets at which the terms of a list start when the first starts at
`o`: the partial sums of the term lengths. -/
def offsets : Nat → List (List Nat) → List Nat
  | _, [] => []
  | o, t :: ts => o :: offsets (o + t.length) ts

/-- The positions `i` with `0 < i < length w` at which the class of `w[i]`
differs from the class of `w[i-1]`, in increasing order. -/
def changePositions (w : List Nat) : List Nat :=
  (List.range w.length).filter
    (fun i => decide (0 < i ∧ classify (w.getD i 0) ≠ classify (w.getD (i - 1) 0)))

/-- The loop body executed `k` times in a row. -/
def iterate (c : Caps) (word : List Nat) : Nat → St → Except Err St
  | 0, s => .ok s
  | k + 1, s =>
    match body c word s with
    | .ok s1 => iterate c word k s1
    | .error e => .error e

/-- The state of `parse` after lines 5 to 11 and `k` executions of the loop
body: the state at the start of iteration `k`, or at loop exit when `k` is the
length of the word. -/
def stateAt (c : Caps) (g0 : gramm) (word : List Nat) (k : Nat) : Except Err St := do
  let s0 ← enter c g0 (List.replicate c.TERM_T 205)
  iterate c word k s0

/-- An array of C has at least one element: the capacities are positive. -/
def ValidCaps (c : Caps) : Prop := 0 < c.TERM_T ∧ 0 < c.BASE_T ∧ 0 < c.NB_TERMS

instance (c : Caps) : Decidable (ValidCaps c) :=
  inferInstanceAs (Decidable (0 < c.TERM_T ∧ 0 < c.BASE_T ∧ 0 < c.NB_TERMS))

/-- The terms `terms`, then the term in progress `buf` (which ends with a
character of the class of `x`), continued by the runs `R` of what follows: the
first run of `R` extends `buf` when it has the class of `x`. -/
def attach (x : Nat) (terms : List (List Nat)) (buf : List Nat) :
    List (List Nat) → List (List Nat)
  | (d :: r) :: rs =>
    if classify x = classify d then terms ++ (buf ++ d :: r) :: rs
    else terms ++ buf :: (d :: r) :: rs
  | _ => terms ++ [buf]

/-- The program state `s` once the prefix `pre` of a word whose characters all
have the class byte `K` has been read, no term having been completed: `term`
holds `pre`, followed by zero bytes as long as `pre` is shorter than
`TERM_T`. -/
structure Mono (c : Caps) (g0 : gramm) (K : Nat) (s : St) (pre : List Nat) : Prop where
  i_eq : s.i = pre.length
  chain_eq : s.chain_length = pre.length
  term_eq : s.term = pre ++ List.replicate (c.TERM_T - pre.length) 0
  base_len : s.g.base.length = c.BASE_T
  base_last : 0 < pre.length → s.g.base[pre.length - 1]? = some K
  terms_eq : s.g.terms = g0.terms
  nb_eq : s.g.nbterms = 0

/-! ## Lemmas on the C primitives -/

theorem store_ok {a : List Nat} {i : Nat} (v : Nat) (h : i < a.length) :
    store a i v = .ok (a.set i v) := by
  simp [store, h]

theorem load_ok {a : List Nat} {i v : Nat} (h : a[i]? = some v) : load a i = .ok v := by
  simp [load, h]

theorem loadRow_ok {t : List (List Nat)} {k : Nat} {r : List Nat} (h : t[k]? = some r) :
    loadRow t k = .ok r := by
  simp [loadRow, h]

theorem set_same {α : Type} (l : List α) (i : Nat) (v : α) (h : l[i]? = some v) :
    l.set i v = l := by
  apply List.ext_getElem?
  intro j
  rw [List.getElem?_set]
  by_cases hij : i = j
  · subst hij
    have hlt : i < l.length := by
      rcases Nat.lt_or_ge i l.length with h1 | h1
      · exact h1
      · rw [List.getElem?_eq_none h1] at h; exact absurd h (by simp)
    simp [hlt, h]
  · simp [hij]

theorem set_length_append {α : Type} (p : List α) (x v : α) (q : List α) :
    (p ++ x :: q).set p.length v = p ++ v :: q := by
  induction p with
  | nil => rfl
  | cons a p ih => simp [ih]

theorem take_succ_set {α : Type} (l : List α) (i : Nat) (v : α) (h : i < l.length) :
    (l.set i v).take (i + 1) = l.take i ++ [v] := by
  induction l generalizing i with
  | nil => simp at h
  | cons a l ih =>
    cases i with
    | zero => simp
    | succ i =>
      have hi : i < l.length := by simpa using h
      simp [ih i hi]

theorem strcpy_ok (buf : List Nat) (hbuf : ∀ x ∈ buf, x ≠ 0) :
    ∀ (dst rest : List Nat), buf.length < dst.length →
      strcpy dst (buf ++ 0 :: rest) = .ok (buf ++ 0 :: dst.drop (buf.length + 1)) := by
  induction buf with
  | nil =>
    intro dst rest h
    cases dst with
    | nil => simp at h
    | cons d dst => simp [strcpy]
  | cons b buf ih =>
    intro dst rest h
    cases dst with
    | nil => simp at h
    | cons d dst =>
      have hb : b ≠ 0 := hbuf b (by simp)
      have hlen : buf.length < dst.length := by simpa using h
      have := ih (fun x hx => hbuf x (by simp [hx])) dst rest hlen
      simp [strcpy, hb, this]

theorem cstr_append_zero (buf rest : List Nat) (hbuf : ∀ x ∈ buf, x ≠ 0) :
    cstr (buf ++ 0 :: rest) = buf := by
  induction buf with
  | nil => simp [cstr]
  | cons b buf ih =>
    have hb : b ≠ 0 := hbuf b (by simp)
    have := ih (fun x hx => hbuf x (by simp [hx]))
    simp only [cstr] at this
    simp [cstr, hb, this]

theorem replicate_pos_zero (k : Nat) (h : 0 < k) :
    List.replicate k 0 = 0 :: List.replicate (k - 1) 0 := by
  cases k with
  | zero => simp at h
  | succ k => simp [List.replicate_succ]

theorem classify_eq (ch : Nat) : classify ch = tagChar (tagOf ch) := by
  unfold classify tagOf tagChar
  split_ifs <;> first | rfl | omega

theorem tagChar_inj {t u : ClassTag} (h : tagChar t = tagChar u) : t = u := by
  cases t <;> cases u <;> simp [tagChar] at h <;> rfl

theorem classify_eq_iff (x y : Nat) : classify x = classify y ↔ tagOf x = tagOf y := by
  rw [classify_eq, classify_eq]
  exact ⟨tagChar_inj, fun h => by rw [h]⟩

/-! ## Class changes -/

theorem changes_cons_cons (a b : Nat) (l : List Nat) :
    changes (a :: b :: l) = (if classify a = classify b then 0 else 1) + changes (b :: l) := rfl

theorem getLast?_snoc {α : Type} (l : List α) (v : α) : (l ++ [v]).getLast? = some v := by
  simp

theorem changes_snoc (p : List Nat) (x ch : Nat) :
    changes (p ++ [x, ch]) =
      changes (p ++ [x]) + (if classify x = classify ch then 0 else 1) := by
  induction p with
  | nil => simp [changes]
  | cons a p ih =>
    cases p with
    | nil => simp [changes]
    | cons b p =>
      simp only [List.cons_append] at ih ⊢
      rw [changes_cons_cons, changes_cons_cons, ih]
      omega

theorem changes_le_append (p r : List Nat) : changes p ≤ changes (p ++ r) := by
  induction p with
  | nil => simp [changes]
  | cons a p ih =>
    cases p with
    | nil => simp [changes]
    | cons b p =>
      simp only [List.cons_append] at ih ⊢
      rw [changes_cons_cons, changes_cons_cons]
      omega

theorem changes_lt_length (w : List Nat) (h : w ≠ []) : changes w + 1 ≤ w.length := by
  induction w with
  | nil => exact absurd rfl h
  | cons a w ih =>
    cases w with
    | nil => simp [changes]
    | cons b w =>
      have := ih (by simp)
      simp only [changes, List.length_cons] at this ⊢
      split_ifs <;> omega

theorem changes_eq_length (w : List Nat) (h : changes w + 1 = w.length) :
    List.Chain' (fun a b => classify a ≠ classify b) w := by
  induction w with
  | nil => simp
  | cons a w ih =>
    cases w with
    | nil => simp
    | cons b w =>
      have hb := changes_lt_length (b :: w) (by simp)
      simp only [changes, List.length_cons] at h hb ⊢
      rw [List.chain'_cons]
      split_ifs at h with hab
      · omega
      · exact ⟨hab, ih (by simp only [List.length_cons]; omega)⟩

/-! ## Invariant of the specified scan -/

theorem Inv.init : Inv [] ⟨[], [], []⟩ := by
  constructor <;> simp [changes]

theorem Inv.step {pre : List Nat} {a : Acc} (h : Inv pre a) (ch : Nat) :
    Inv (pre ++ [ch]) (specStep a ch) := by
  rcases List.eq_nil_or_concat pre with hp | ⟨p, x, hp⟩
  · subst hp
    have hc : a.classes = [] := by simpa using h.classes_eq
    have hb : a.buf = [] := by
      have := h.join_eq
      simp only [List.append_eq_nil] at this
      exact this.2
    have ht : a.terms = [] := by
      have := h.count
      simpa [changes] using this
    constructor <;> simp [specStep, hc, hb, ht, changes]
  · rw [List.concat_eq_append] at hp
    subst hp
    have hc : a.classes = p.map tagOf ++ [tagOf x] := by simpa using h.classes_eq
    have hlast : a.classes.getLast? = some (tagOf x) := by simp [hc]
    have hidx : a.classes[a.classes.length - 1]? = some (tagOf x) := by
      rw [← List.getLast?_eq_getElem?]; exact hlast
    have hpos : 0 < a.classes.length := by simp [hc]
    have hbt : ∀ y ∈ a.buf, classify y = classify x := by
      intro y hy
      have := h.buf_tag y hy
      rw [hlast] at this
      rw [classify_eq_iff]
      exact (Option.some.inj this).symm
    have hbne : a.buf ≠ [] := h.buf_ne (by simp)
    have hcount : changes (p ++ [x] ++ [ch]) =
        changes (p ++ [x]) + (if classify x = classify ch then 0 else 1) := by
      rw [List.append_assoc]; exact changes_snoc p x ch
    by_cases hx : tagOf x = tagOf ch
    · have hstep : specStep a ch =
          { classes := a.classes ++ [tagOf ch], terms := a.terms, buf := a.buf ++ [ch] } := by
        simp [specStep, hidx, hx]
      have hcl : classify x = classify ch := (classify_eq_iff x ch).2 hx
      rw [hstep]
      refine ⟨by simp [hc], ?_, ?_, by simp, h.terms_ne, h.homog, h.chain, ?_, ?_⟩
      · simp only; rw [← List.append_assoc, h.join_eq]
      · intro y hy
        simp only [List.mem_append, List.mem_singleton] at hy
        rw [getLast?_snoc]
        rcases hy with hy | hy
        · have := (classify_eq_iff y x).1 (hbt y hy)
          rw [this, hx]
        · rw [hy]
      · intro t ht y hy z hz
        simp only [List.mem_append, List.mem_singleton] at hz
        rcases hz with hz | hz
        · exact h.last_diff t ht y hy z hz
        · obtain ⟨b, hb⟩ := List.exists_mem_of_ne_nil _ hbne
          have := h.last_diff t ht y hy b hb
          rw [hbt b hb] at this
          rw [hz, ← hcl]; exact this
      · simp only; rw [hcount, h.count, if_pos hcl]; rfl
    · have hstep : specStep a ch =
          { classes := a.classes ++ [tagOf ch], terms := a.terms ++ [a.buf], buf := [ch] } := by
        simp [specStep, hidx, hx, hpos]
      have hcl : classify x ≠ classify ch := fun e => hx ((classify_eq_iff x ch).1 e)
      rw [hstep]
      refine ⟨by simp [hc], ?_, ?_, by simp, ?_, ?_, ?_, ?_, ?_⟩
      · simp only [List.flatten_append, List.flatten_cons, List.flatten_nil, List.append_nil]
        rw [h.join_eq]
      · intro y hy
        simp only [List.mem_singleton] at hy
        simp [hy]
      · intro t ht
        simp only [List.mem_append, List.mem_singleton] at ht
        rcases ht with ht | ht
        · exact h.terms_ne t ht
        · rw [ht]; exact hbne
      · intro t ht
        simp only [List.mem_append, List.mem_singleton] at ht
        rcases ht with ht | ht
        · exact h.homog t ht
        · rw [ht]; intro y hy z hz; rw [hbt y hy, hbt z hz]
      · rw [List.chain'_append]
        refine ⟨h.chain, by simp, ?_⟩
        intro t ht u hu
        simp only [List.head?_cons, Option.mem_def, Option.some.injEq] at hu ht
        rw [← hu]; exact h.last_diff t ht
      · intro t ht y hy z hz
        rw [getLast?_snoc] at ht
        simp only [Option.some.injEq] at ht
        simp only [List.mem_singleton] at hz
        rw [← ht] at hy
        rw [hz, hbt y hy]; exact hcl
      · simp only [List.length_append, List.length_singleton]
        rw [hcount, h.count, if_neg hcl]

theorem Inv.foldl (rest : List Nat) :
    ∀ {pre : List Nat} {a : Acc}, Inv pre a → Inv (pre ++ rest) (rest.foldl specStep a) := by
  induction rest with
  | nil => intro pre a h; simpa using h
  | cons ch rest ih =>
    intro pre a h
    have := ih (h.step ch)
    simpa using this

theorem Inv.scan (w : List Nat) : Inv w (specScan w) := by
  have := Inv.foldl w Inv.init
  simpa [specScan] using this

/-! ## The code simulates the specified scan -/

theorem getElem?_append_replicate (buf : List Nat) (k j : Nat) (h1 : buf.length ≤ j)
    (h2 : j < buf.length + k) : (buf ++ List.replicate k 0)[j]? = some 0 := by
  rw [List.getElem?_append_right h1, List.getElem?_replicate]
  have : j - buf.length < k := by omega
  simp [this]

theorem flush_ok (c : Caps) (s : St) (buf row : List Nat)
    (hterm : s.term = buf ++ List.replicate (c.TERM_T - buf.length) 0)
    (hbuf0 : ∀ y ∈ buf, y ≠ 0) (hbi : buf.length ≤ s.i) (hiT : s.i + 1 < c.TERM_T)
    (hrow : s.g.terms[s.g.nbterms]? = some row) (hrl : row.length = c.TERM_T) :
    flush c s = .ok
      { g := { base := s.g.base,
               terms := s.g.terms.set s.g.nbterms (buf ++ 0 :: row.drop (buf.length + 1)),
               nbterms := s.g.nbterms + 1 },
        i := s.i, chain_length := 0, term := List.replicate c.TERM_T 0 } := by
  have htl : s.term.length = c.TERM_T := by
    rw [hterm]; simp only [List.length_append, List.length_replicate]; omega
  have h1 : store s.term (s.i + 1) 0 = .ok s.term := by
    rw [store_ok _ (by omega), set_same]
    rw [hterm]
    exact getElem?_append_replicate buf _ _ (by omega) (by omega)
  have h3 : strcpy row s.term = .ok (buf ++ 0 :: row.drop (buf.length + 1)) := by
    rw [hterm, replicate_pos_zero _ (by omega)]
    exact strcpy_ok buf hbuf0 row _ (by omega)
  have h4 : memset s.term 0 c.TERM_T = .ok (List.replicate c.TERM_T 0) := by
    unfold memset
    rw [if_pos (by omega), List.drop_of_length_le (by omega), List.append_nil]
  simp only [flush, bind, Except.bind, h1, loadRow_ok hrow, h3, h4, pure, Except.pure]

theorem classChange_ok {c : Caps} {s : St} {a : Acc} (hsim : Sim c s a) (v : ClassTag)
    (hiB : s.i < s.g.base.length) :
    classChange (s.g.base.set s.i (tagChar v)) s.i =
      .ok (decide (0 < a.classes.length ∧ a.classes[a.classes.length - 1]? ≠ some v)) := by
  unfold classChange
  by_cases h0 : 0 < s.i
  · have hl : 0 < a.classes.length := by rw [← hsim.i_eq]; exact h0
    have hlt : a.classes.length - 1 < a.classes.length := by omega
    have ht0 : a.classes[a.classes.length - 1]? = some (a.classes[a.classes.length - 1]) :=
      List.getElem?_eq_getElem hlt
    generalize a.classes[a.classes.length - 1] = t0 at ht0
    have hcur : (s.g.base.set s.i (tagChar v))[s.i]? = some (tagChar v) := by
      simp [hiB]
    have hprev : (s.g.base.set s.i (tagChar v))[s.i - 1]? = some (tagChar t0) := by
      rw [List.getElem?_set_ne (by omega)]
      have h1 : (s.g.base.take s.i)[s.i - 1]? = s.g.base[s.i - 1]? := by
        rw [List.getElem?_take, if_pos (by omega)]
      rw [← h1, hsim.base_eq, List.getElem?_map, hsim.i_eq, ht0]
      rfl
    rw [if_pos h0]
    simp only [bind, Except.bind, load_ok hcur, load_ok hprev, pure, Except.pure, ht0]
    congr 1
    by_cases hv : t0 = v
    · subst hv; simp
    · have : tagChar v ≠ tagChar t0 := fun e => hv (tagChar_inj e).symm
      simp [hl, hv, this]
  · have hl : a.classes.length = 0 := by rw [← hsim.i_eq]; omega
    rw [if_neg h0]
    simp [hl, pure, Except.pure]

theorem Inv.buf_length_le {pre : List Nat} {a : Acc} (h : Inv pre a) :
    a.buf.length ≤ pre.length := by
  have := congrArg List.length h.join_eq
  simp only [List.length_append] at this
  omega

theorem Inv.buf_subset {pre : List Nat} {a : Acc} (h : Inv pre a) :
    ∀ y ∈ a.buf, y ∈ pre := by
  intro y hy
  rw [← h.join_eq]
  exact List.mem_append_right _ hy

theorem sim_body {c : Caps} {w pre rest : List Nat} {ch : Nat} {s : St} {a : Acc}
    (hw : w = pre ++ ch :: rest) (hfit : Fits c w) (hcs : CString w)
    (hinv : Inv pre a) (hsim : Sim c s a) :
    ∃ s1, body c w s = .ok s1 ∧ Sim c s1 (specStep a ch) := by
  obtain ⟨hT, hB, hN⟩ := hfit
  have hlen : w.length = pre.length + 1 + rest.length := by
    subst hw; simp only [List.length_append, List.length_cons]; omega
  have hcl : a.classes.length = pre.length := by rw [hinv.classes_eq]; simp
  have hi : s.i = pre.length := by rw [hsim.i_eq, hcl]
  have hch : wordAt w s.i = ch := by
    rw [hi, hw]; unfold wordAt
    rw [List.getD_eq_getElem?_getD, List.getElem?_append_right (Nat.le_refl _)]
    simp
  have hiB : s.i < s.g.base.length := by rw [hsim.base_len]; omega
  have hbuf0 : ∀ y ∈ a.buf, y ≠ 0 := fun y hy =>
    hcs y (by rw [hw]; exact List.mem_append_left _ (hinv.buf_subset y hy))
  have hbl := hinv.buf_length_le
  have hinv1 := hinv.step ch
  have hcnt : (specStep a ch).terms.length + 1 ≤ c.NB_TERMS := by
    have h1 := changes_le_append (pre ++ [ch]) rest
    have h2 : pre ++ [ch] ++ rest = w := by rw [hw]; simp
    rw [h2] at h1
    rw [hinv1.count]; omega
  have hcc := classChange_ok hsim (tagOf ch) hiB
  rw [← classify_eq] at hcc
  have hbase1 : (s.g.base.set s.i (classify ch)).take (s.i + 1) =
      (a.classes ++ [tagOf ch]).map tagChar := by
    rw [take_succ_set _ _ _ hiB, hsim.base_eq, classify_eq]; simp
  unfold body
  simp only [hch, bind, Except.bind, store_ok _ hiB, hcc]
  by_cases hcond : 0 < a.classes.length ∧ a.classes[a.classes.length - 1]? ≠ some (tagOf ch)
  · have hstep : specStep a ch =
        { classes := a.classes ++ [tagOf ch], terms := a.terms ++ [a.buf], buf := [ch] } := by
      unfold specStep; simp only [if_pos hcond]
    rw [hstep] at hcnt ⊢
    simp only [List.length_append, List.length_singleton] at hcnt
    have hnb : s.g.nbterms < s.g.terms.length := by rw [hsim.nb_eq, hsim.rows_len]; omega
    have hrow : s.g.terms[s.g.nbterms]? = some (s.g.terms[s.g.nbterms]) :=
      List.getElem?_eq_getElem hnb
    have hrl : (s.g.terms[s.g.nbterms]).length = c.TERM_T :=
      hsim.row_len _ (List.getElem_mem _)
    generalize s.g.terms[s.g.nbterms] = row at hrow hrl
    have hfl := flush_ok c { s with g := { s.g with base := s.g.base.set s.i (classify ch) } }
      a.buf row hsim.term_eq hbuf0 (by simp only; omega) (by simp only; omega) hrow hrl
    simp only [decide_eq_true hcond, if_true, hfl]
    have hst : store (List.replicate c.TERM_T 0) 0 ch =
        .ok (ch :: List.replicate (c.TERM_T - 1) 0) := by
      rw [store_ok _ (by simp only [List.length_replicate]; omega),
        replicate_pos_zero _ (by omega)]
      rfl
    simp only [hst, pure, Except.pure]
    refine ⟨_, rfl, ?_⟩
    constructor
    · simp only [List.length_append, List.length_singleton]; rw [hsim.i_eq]
    · simp only [List.length_set]; exact hsim.base_len
    · exact hbase1
    · simp
    · simp
    · simp only [List.length_append, List.length_singleton]; rw [hsim.nb_eq]
    · simp only [List.length_set]; exact hsim.rows_len
    · intro r hr
      rcases List.mem_or_eq_of_mem_set hr with h1 | h1
      · exact hsim.row_len r h1
      · rw [h1]
        simp only [List.length_append, List.length_cons, List.length_drop]
        omega
    · simp only
      rw [take_succ_set _ _ _ hnb, List.map_append, hsim.rows_eq]
      simp only [List.map_cons, List.map_nil]
      rw [cstr_append_zero _ _ hbuf0]
  · have hstep : specStep a ch =
        { classes := a.classes ++ [tagOf ch], terms := a.terms, buf := a.buf ++ [ch] } := by
      unfold specStep; simp only [if_neg hcond]
    rw [hstep]
    have hst : store s.term s.chain_length ch =
        .ok (a.buf ++ ch :: List.replicate (c.TERM_T - a.buf.length - 1) 0) := by
      have hl : s.term.length = c.TERM_T := by
        rw [hsim.term_eq]; simp only [List.length_append, List.length_replicate]; omega
      rw [store_ok _ (by rw [hsim.chain_eq, hl]; omega), hsim.chain_eq, hsim.term_eq,
        replicate_pos_zero _ (by omega), set_length_append]
    simp only [decide_eq_false hcond, hst, pure, Except.pure]
    refine ⟨_, rfl, ?_⟩
    constructor
    · simp only [List.length_append, List.length_singleton]; rw [hsim.i_eq]
    · simp only [List.length_set]; exact hsim.base_len
    · exact hbase1
    · simp only [List.length_append, List.length_singleton, List.append_assoc,
        List.singleton_append]
      rw [Nat.sub_add_eq]
    · simp only [List.length_append, List.length_singleton]; rw [hsim.chain_eq]
    · exact hsim.nb_eq
    · exact hsim.rows_len
    · exact hsim.row_len
    · exact hsim.rows_eq

theorem sim_loop {c : Caps} {w : List Nat} (hfit : Fits c w) (hcs : CString w) :
    ∀ (rest pre : List Nat) (s : St) (a : Acc) (fuel : Nat),
      w = pre ++ rest → Inv pre a → Sim c s a → rest.length < fuel →
      ∃ s1, loop c w fuel s = .ok s1 ∧ Sim c s1 (rest.foldl specStep a) := by
  intro rest
  induction rest with
  | nil =>
    intro pre s a fuel hw hinv hsim hfuel
    cases fuel with
    | zero => simp at hfuel
    | succ n =>
      have hi : s.i = w.length := by
        rw [hsim.i_eq, hinv.classes_eq, hw]; simp
      have h0 : wordAt w s.i = 0 := by
        unfold wordAt; rw [hi]; exact List.getD_eq_default _ _ (Nat.le_refl _)
      refine ⟨s, ?_, by simpa using hsim⟩
      unfold loop
      simp [h0]
  | cons ch rest ih =>
    intro pre s a fuel hw hinv hsim hfuel
    cases fuel with
    | zero => simp at hfuel
    | succ n =>
      have hi : s.i = pre.length := by
        rw [hsim.i_eq, hinv.classes_eq]; simp
      have hch : wordAt w s.i = ch := by
        rw [hi, hw]; unfold wordAt
        rw [List.getD_eq_getElem?_getD, List.getElem?_append_right (Nat.le_refl _)]
        simp
      have hne : ch ≠ 0 := hcs ch (by rw [hw]; simp)
      obtain ⟨s1, hb, hsim1⟩ := sim_body hw hfit hcs hinv hsim
      obtain ⟨s2, hl, hsim2⟩ := ih (pre ++ [ch]) s1 (specStep a ch) n (by rw [hw]; simp)
        (hinv.step ch) hsim1 (by simpa using hfuel)
      refine ⟨s2, ?_, by simpa using hsim2⟩
      unfold loop
      simp [hch, hne, hb, hl]

theorem sim_enter {c : Caps} {g0 : gramm} (hws : WellSized c g0) :
    ∃ s0, enter c g0 (List.replicate c.TERM_T 205) = .ok s0 ∧ Sim c s0 ⟨[], [], []⟩ := by
  obtain ⟨h1, h2, h3⟩ := hws
  have hm : memset (List.replicate c.TERM_T 205) 0 c.TERM_T = .ok (List.replicate c.TERM_T 0) := by
    unfold memset
    rw [if_pos (by simp), List.drop_of_length_le (by simp), List.append_nil]
  refine ⟨{ g := { g0 with nbterms := 0 }, i := 0, chain_length := 0,
            term := List.replicate c.TERM_T 0 },
    by simp only [enter, bind, Except.bind, hm, pure, Except.pure], ?_⟩
  constructor <;> simp [h1, h2]
  exact h3

/-- What `parse` returns on a word that fits the buffers, in terms of the
specified scan. -/
theorem parse_sim {c : Caps} {g0 : gramm} {w : List Nat}
    (hws : WellSized c g0) (hfit : Fits c w) (hcs : CString w) :
    ∃ g, parse c g0 w = .ok g ∧ g.base.length = c.BASE_T ∧
      (∃ tl, g.base = (specScan w).classes.map tagChar ++ 0 :: tl) ∧
      g.nbterms = (specScan w).terms.length + 1 ∧
      termsOf g = (specScan w).terms ++ [(specScan w).buf] := by
  obtain ⟨s0, he, hsim0⟩ := sim_enter (c := c) hws
  obtain ⟨s, hl, hsim⟩ := sim_loop hfit hcs w [] s0 ⟨[], [], []⟩ (w.length + 1) rfl
    Inv.init hsim0 (Nat.lt_succ_self _)
  have hinv := Inv.scan w
  change Sim c s (specScan w) at hsim
  obtain ⟨hT, hB, hN⟩ := hfit
  have hcl : (specScan w).classes.length = w.length := by rw [hinv.classes_eq]; simp
  have hi : s.i = w.length := by rw [hsim.i_eq, hcl]
  have hbl := hinv.buf_length_le
  have hbuf0 : ∀ y ∈ (specScan w).buf, y ≠ 0 := fun y hy => hcs y (hinv.buf_subset y hy)
  have hnb : s.g.nbterms < s.g.terms.length := by
    rw [hsim.nb_eq, hsim.rows_len, hinv.count]; omega
  have hrow : s.g.terms[s.g.nbterms]? = some (s.g.terms[s.g.nbterms]) :=
    List.getElem?_eq_getElem hnb
  have hrl : (s.g.terms[s.g.nbterms]).length = c.TERM_T :=
    hsim.row_len _ (List.getElem_mem _)
  generalize s.g.terms[s.g.nbterms] = row at hrow hrl
  have hcp : strcpy row s.term =
      .ok ((specScan w).buf ++ 0 :: row.drop ((specScan w).buf.length + 1)) := by
    rw [hsim.term_eq, replicate_pos_zero _ (by omega)]
    exact strcpy_ok _ hbuf0 row _ (by omega)
  have hiB : s.i < s.g.base.length := by rw [hsim.base_len]; omega
  refine ⟨{ base := s.g.base.set s.i 0,
            terms := s.g.terms.set s.g.nbterms
              ((specScan w).buf ++ 0 :: row.drop ((specScan w).buf.length + 1)),
            nbterms := s.g.nbterms + 1 }, ?_, ?_, ?_, ?_, ?_⟩
  · unfold parse
    simp only [bind, Except.bind, he, hl, finish, loadRow_ok hrow, hcp, store_ok _ hiB, pure,
      Except.pure]
  · simp only [List.length_set]; exact hsim.base_len
  · refine ⟨s.g.base.drop (s.i + 1), ?_⟩
    simp only
    rw [List.set_eq_take_append_cons_drop, if_pos hiB, hsim.base_eq]
  · simp only; rw [hsim.nb_eq]
  · unfold termsOf
    simp only
    rw [take_succ_set _ _ _ hnb, List.map_append, hsim.rows_eq]
    simp only [List.map_cons, List.map_nil]
    rw [cstr_append_zero _ _ hbuf0]

/-! ## Properties of the result -/

theorem classify_ne_zero (x : Nat) : classify x ≠ 0 := by
  unfold classify
  split_ifs <;> decide

theorem map_classify (w : List Nat) : (w.map tagOf).map tagChar = w.map classify := by
  rw [List.map_map]
  apply List.map_congr_left
  intro x _
  exact (classify_eq x).symm

theorem spec_join (w : List Nat) : (specParse w).terms.flatten = w := by
  have h := (Inv.scan w).join_eq
  simpa [specParse] using h

theorem spec_length (w : List Nat) : (specParse w).terms.length = changes w + 1 := by
  simp [specParse, (Inv.scan w).count]

theorem spec_ne (w : List Nat) (hw : w ≠ []) : ∀ t ∈ (specParse w).terms, t ≠ [] := by
  intro t ht
  simp only [specParse, List.mem_append, List.mem_singleton] at ht
  rcases ht with ht | ht
  · exact (Inv.scan w).terms_ne t ht
  · rw [ht]; exact (Inv.scan w).buf_ne hw

theorem spec_homog (w : List Nat) : ∀ t ∈ (specParse w).terms, Homogeneous t := by
  intro t ht
  simp only [specParse, List.mem_append, List.mem_singleton] at ht
  rcases ht with ht | ht
  · exact (Inv.scan w).homog t ht
  · rw [ht]
    intro x hx y hy
    have h1 := (Inv.scan w).buf_tag x hx
    have h2 := (Inv.scan w).buf_tag y hy
    rw [h1] at h2
    exact (classify_eq_iff x y).2 (Option.some.inj h2)

theorem spec_chain (w : List Nat) : List.Chain' Differ (specParse w).terms := by
  simp only [specParse]
  rw [List.chain'_append]
  refine ⟨(Inv.scan w).chain, by simp, ?_⟩
  intro t ht u hu
  simp only [List.head?_cons, Option.mem_def, Option.some.injEq] at hu ht
  rw [← hu]; exact (Inv.scan w).last_diff t ht

theorem chain_getElem? {α : Type} {R : α → α → Prop} :
    ∀ {l : List α}, List.Chain' R l →
      ∀ (k : Nat) (x y : α), l[k]? = some x → l[k + 1]? = some y → R x y := by
  intro l
  induction l with
  | nil => intro _ k x y hx; simp at hx
  | cons a l ih =>
    intro h k x y hx hy
    cases l with
    | nil => simp at hy
    | cons b l =>
      rw [List.chain'_cons] at h
      cases k with
      | zero =>
        simp only [List.getElem?_cons_zero, Option.some.injEq, zero_add,
          List.getElem?_cons_succ] at hx hy
        rw [← hx, ← hy]; exact h.1
      | succ k =>
        simp only [List.getElem?_cons_succ] at hx hy
        exact ih h.2 k x y hx (by simpa using hy)

/-- The result of `parse` on a word that fits the buffers: the class string,
the number of terms and the terms are those of the specified algorithm. -/
theorem parse_spec {c : Caps} {g0 : gramm} {w : List Nat}
    (hws : WellSized c g0) (hfit : Fits c w) (hcs : CString w) :
    ∃ g, parse c g0 w = .ok g ∧ g.base.length = c.BASE_T ∧
      (∃ tl, g.base = w.map classify ++ 0 :: tl) ∧
      g.nbterms = changes w + 1 ∧ termsOf g = (specParse w).terms := by
  obtain ⟨g, hg, hlen, ⟨tl, htl⟩, hnb, hterms⟩ := parse_sim hws hfit hcs
  refine ⟨g, hg, hlen, ⟨tl, ?_⟩, ?_, hterms⟩
  · rw [htl, (Inv.scan w).classes_eq, map_classify]
  · rw [hnb, (Inv.scan w).count]

theorem cstr_classes (w tl : List Nat) : cstr (w.map classify ++ 0 :: tl) = w.map classify := by
  apply cstr_append_zero
  intro x hx
  simp only [List.mem_map] at hx
  obtain ⟨y, _, hy⟩ := hx
  rw [← hy]; exact classify_ne_zero y

theorem classify_rule (x : Nat) :
    classify x = if (97 ≤ x ∧ x ≤ 122) ∨ (65 ≤ x ∧ x ≤ 90) then 76
      else if 48 ≤ x ∧ x ≤ 57 then 68 else 83 := by
  unfold classify
  split_ifs <;> first | rfl | omega

theorem mem_of_getElem?_eq {α : Type} {l : List α} {k : Nat} {x : α} (h : l[k]? = some x) :
    x ∈ l := by
  rw [List.getElem?_eq_some_iff] at h
  obtain ⟨hk, hx⟩ := h
  rw [← hx]; exact List.getElem_mem hk

theorem changes_pos_ne_nil {w : List Nat} (h : 0 < changes w) : w ≠ [] := by
  intro hw
  rw [hw] at h
  simp [changes] at h

/-! ## The documented properties -/

/-- C1 (round trip): on every word that fits the buffers `parse` returns, and
the terms it returns, concatenated in index order, are exactly the word. -/
theorem parse_roundtrip (c : Caps) (g0 : gramm) (w : List Nat)
    (hws : WellSized c g0) (hfit : Fits c w) (hcs : CString w) :
    ∃ g, parse c g0 w = .ok g ∧ (termsOf g).flatten = w := by
  obtain ⟨g, hg, _, _, _, hterms⟩ := parse_spec hws hfit hcs
  exact ⟨g, hg, by rw [hterms, spec_join]⟩

/-- C1 at the word `"ab1"` with `TERM_T = 4`, 5 characters in `g.base` and 3 rows. -/
theorem parse_roundtrip_witness :
    WellSized ⟨4, 5, 3⟩ (blank ⟨4, 5, 3⟩ 255) ∧ Fits ⟨4, 5, 3⟩ [97, 98, 49] ∧
      CString [97, 98, 49] ∧
      ∃ g, parse ⟨4, 5, 3⟩ (blank ⟨4, 5, 3⟩ 255) [97, 98, 49] = .ok g ∧
        (termsOf g).flatten = [97, 98, 49] :=
  ⟨by decide, by decide, by decide,
    parse_roundtrip ⟨4, 5, 3⟩ (blank ⟨4, 5, 3⟩ 255) [97, 98, 49]
      (by decide) (by decide) (by decide)⟩

/-- C2 (classification): on every word `w` of length `n` that fits the buffers,
the returned `base` is a string of length exactly `n`, with its terminator at
index `n`, and `base[i]` is `'L'` (76) when `w[i]` is in `a`-`z` or `A`-`Z`,
`'D'` (68) when it is in `0`-`9`, and `'S'` (83) otherwise. -/
theorem parse_classification (c : Caps) (g0 : gramm) (w : List Nat)
    (hws : WellSized c g0) (hfit : Fits c w) (hcs : CString w) :
    ∃ g, parse c g0 w = .ok g ∧ (cstr g.base).length = w.length ∧
      g.base[w.length]? = some 0 ∧
      ∀ (i x : Nat), w[i]? = some x →
        g.base[i]? = some (if (97 ≤ x ∧ x ≤ 122) ∨ (65 ≤ x ∧ x ≤ 90) then 76
          else if 48 ≤ x ∧ x ≤ 57 then 68 else 83) := by
  obtain ⟨g, hg, _, ⟨tl, htl⟩, _, _⟩ := parse_spec hws hfit hcs
  refine ⟨g, hg, ?_, ?_, ?_⟩
  · rw [htl, cstr_classes]; simp
  · rw [htl, List.getElem?_append_right (by simp)]; simp
  · intro i x hx
    have hi : i < w.length := by
      rw [List.getElem?_eq_some_iff] at hx; exact hx.1
    rw [htl, List.getElem?_append_left (by simpa using hi), List.getElem?_map, hx,
      ← classify_rule]
    rfl

/-- C2 at the word `"a1!"` with `TERM_T = 4`, 5 characters in `g.base` and 3 rows. -/
theorem parse_classification_witness :
    WellSized ⟨4, 5, 3⟩ (blank ⟨4, 5, 3⟩ 255) ∧ Fits ⟨4, 5, 3⟩ [97, 49, 33] ∧
      CString [97, 49, 33] ∧
      ∃ g, parse ⟨4, 5, 3⟩ (blank ⟨4, 5, 3⟩ 255) [97, 49, 33] = .ok g ∧
        (cstr g.base).length = [97, 49, 33].length ∧
        g.base[[97, 49, 33].length]? = some 0 ∧
        ∀ (i x : Nat), [97, 49, 33][i]? = some x →
          g.base[i]? = some (if (97 ≤ x ∧ x ≤ 122) ∨ (65 ≤ x ∧ x ≤ 90) then 76
            else if 48 ≤ x ∧ x ≤ 57 then 68 else 83) :=
  ⟨by decide, by decide, by decide,
    parse_classification ⟨4, 5, 3⟩ (blank ⟨4, 5, 3⟩ 255) [97, 49, 33]
      (by decide) (by decide) (by decide)⟩

/-- C3 (maximality): on every word that fits the buffers, for every `k` with
`k + 1 < nbterms` the terms `k` and `k + 1` exist, no character of the first
has the class of a character of the second, and in particular the last
character of term `k` and the first character of term `k + 1` differ in
class. -/
theorem parse_maximality (c : Caps) (g0 : gramm) (w : List Nat)
    (hws : WellSized c g0) (hfit : Fits c w) (hcs : CString w) :
    ∃ g, parse c g0 w = .ok g ∧
      ∀ k, k + 1 < g.nbterms →
        ∃ t u, (termsOf g)[k]? = some t ∧ (termsOf g)[k + 1]? = some u ∧
          (∀ x ∈ t, ∀ y ∈ u, classify x ≠ classify y) ∧
          ∃ x y, t.getLast? = some x ∧ u.head? = some y ∧ classify x ≠ classify y := by
  obtain ⟨g, hg, _, _, hnb, hterms⟩ := parse_spec hws hfit hcs
  refine ⟨g, hg, ?_⟩
  intro k hk
  have hlen := spec_length w
  have hw : w ≠ [] := changes_pos_ne_nil (by omega)
  rw [hterms]
  have hk0 : k < (specParse w).terms.length := by omega
  have hk1 : k + 1 < (specParse w).terms.length := by omega
  have ht : (specParse w).terms[k]? = some ((specParse w).terms[k]) :=
    List.getElem?_eq_getElem hk0
  have hu : (specParse w).terms[k + 1]? = some ((specParse w).terms[k + 1]) :=
    List.getElem?_eq_getElem hk1
  generalize (specParse w).terms[k] = t at ht
  generalize (specParse w).terms[k + 1] = u at hu
  have hd : Differ t u := chain_getElem? (spec_chain w) k t u ht hu
  have htne : t ≠ [] := spec_ne w hw t (mem_of_getElem?_eq ht)
  have hune : u ≠ [] := spec_ne w hw u (mem_of_getElem?_eq hu)
  refine ⟨t, u, ht, hu, hd, t.getLast htne, u.head hune, ?_, ?_, ?_⟩
  · exact List.getLast?_eq_getLast t htne
  · exact List.head?_eq_head hune
  · exact hd _ (List.getLast_mem htne) _ (List.head_mem hune)

/-- C3 at the word `"ab1"` with `TERM_T = 4`, 5 characters in `g.base` and 3 rows. -/
theorem parse_maximality_witness :
    WellSized ⟨4, 5, 3⟩ (blank ⟨4, 5, 3⟩ 255) ∧ Fits ⟨4, 5, 3⟩ [97, 98, 49] ∧
      CString [97, 98, 49] ∧
      ∃ g, parse ⟨4, 5, 3⟩ (blank ⟨4, 5, 3⟩ 255) [97, 98, 49] = .ok g ∧
        ∀ k, k + 1 < g.nbterms →
          ∃ t u, (termsOf g)[k]? = some t ∧ (termsOf g)[k + 1]? = some u ∧
            (∀ x ∈ t, ∀ y ∈ u, classify x ≠ classify y) ∧
            ∃ x y, t.getLast? = some x ∧ u.head? = some y ∧ classify x ≠ classify y :=
  ⟨by decide, by decide, by decide,
    parse_maximality ⟨4, 5, 3⟩ (blank ⟨4, 5, 3⟩ 255) [97, 98, 49]
      (by decide) (by decide) (by decide)⟩

/-- C4 (term homogeneity): on every word that fits the buffers, all characters
of each returned term have the same class. -/
theorem parse_homogeneous (c : Caps) (g0 : gramm) (w : List Nat)
    (hws : WellSized c g0) (hfit : Fits c w) (hcs : CString w) :
    ∃ g, parse c g0 w = .ok g ∧ (termsOf g).length = g.nbterms ∧
      ∀ t ∈ termsOf g, ∀ x ∈ t, ∀ y ∈ t, classify x = classify y := by
  obtain ⟨g, hg, _, _, hnb, hterms⟩ := parse_spec hws hfit hcs
  refine ⟨g, hg, by rw [hterms, spec_length, hnb], ?_⟩
  rw [hterms]
  exact spec_homog w

/-- C4 at the word `"ab1"` with `TERM_T = 4`, 5 characters in `g.base` and 3 rows. -/
theorem parse_homogeneous_witness :
    WellSized ⟨4, 5, 3⟩ (blank ⟨4, 5, 3⟩ 255) ∧ Fits ⟨4, 5, 3⟩ [97, 98, 49] ∧
      CString [97, 98, 49] ∧
      ∃ g, parse ⟨4, 5, 3⟩ (blank ⟨4, 5, 3⟩ 255) [97, 98, 49] = .ok g ∧
        (termsOf g).length = g.nbterms ∧
        ∀ t ∈ termsOf g, ∀ x ∈ t, ∀ y ∈ t, classify x = classify y :=
  ⟨by decide, by decide, by decide,
    parse_homogeneous ⟨4, 5, 3⟩ (blank ⟨4, 5, 3⟩ 255) [97, 98, 49]
      (by decide) (by decide) (by decide)⟩

/-- C5, as stated, fails on the empty word: it fits the buffers, and `parse`
returns one term, the empty string. -/
theorem parse_nonempty_terms_counterexample :
    WellSized ⟨1, 1, 1⟩ (blank ⟨1, 1, 1⟩ 255) ∧ Fits ⟨1, 1, 1⟩ [] ∧ CString [] ∧
      parse ⟨1, 1, 1⟩ (blank ⟨1, 1, 1⟩ 255) [] = .ok ⟨[0], [[0]], 1⟩ ∧
      termsOf ⟨[0], [[0]], 1⟩ = [[]] ∧
      ¬ ∀ t ∈ termsOf ⟨[0], [[0]], 1⟩, 1 ≤ t.length := by
  decide

/-- C5 (amended): on every non-empty word that fits the buffers, each of the
`nbterms` returned terms has length at least 1. -/
theorem parse_nonempty_terms (c : Caps) (g0 : gramm) (w : List Nat)
    (hws : WellSized c g0) (hfit : Fits c w) (hcs : CString w) (hne : w ≠ []) :
    ∃ g, parse c g0 w = .ok g ∧ (termsOf g).length = g.nbterms ∧
      ∀ t ∈ termsOf g, 1 ≤ t.length := by
  obtain ⟨g, hg, _, _, hnb, hterms⟩ := parse_spec hws hfit hcs
  refine ⟨g, hg, by rw [hterms, spec_length, hnb], ?_⟩
  rw [hterms]
  intro t ht
  exact List.length_pos.2 (spec_ne w hne t ht)

/-- C5 (amended) at the word `"ab1"` with `TERM_T = 4`, 5 characters in `g.base` and 3 rows. -/
theorem parse_nonempty_terms_witness :
    WellSized ⟨4, 5, 3⟩ (blank ⟨4, 5, 3⟩ 255) ∧ Fits ⟨4, 5, 3⟩ [97, 98, 49] ∧
      CString [97, 98, 49] ∧ [97, 98, 49] ≠ [] ∧
      ∃ g, parse ⟨4, 5, 3⟩ (blank ⟨4, 5, 3⟩ 255) [97, 98, 49] = .ok g ∧
        (termsOf g).length = g.nbterms ∧ ∀ t ∈ termsOf g, 1 ≤ t.length :=
  ⟨by decide, by decide, by decide, by decide,
    parse_nonempty_terms ⟨4, 5, 3⟩ (blank ⟨4, 5, 3⟩ 255) [97, 98, 49]
      (by decide) (by decide) (by decide) (by decide)⟩

/-- C6, as stated, fails on the empty word: it fits the buffers and `parse`
returns `nbterms = 1`, which exceeds its length 0. -/
theorem parse_count_bound_counterexample :
    WellSized ⟨1, 1, 1⟩ (blank ⟨1, 1, 1⟩ 255) ∧ Fits ⟨1, 1, 1⟩ [] ∧ CString [] ∧
      parse ⟨1, 1, 1⟩ (blank ⟨1, 1, 1⟩ 255) [] = .ok ⟨[0], [[0]], 1⟩ ∧
      ¬ (gramm.nbterms ⟨[0], [[0]], 1⟩ ≤ ([] : List Nat).length) := by
  decide

/-- C6 (amended): on every non-empty word `w` that fits the buffers,
`nbterms ≤ length w`, and `nbterms = length w` only when every pair of adjacent
characters of `w` differs in class. -/
theorem parse_count_bound (c : Caps) (g0 : gramm) (w : List Nat)
    (hws : WellSized c g0) (hfit : Fits c w) (hcs : CString w) (hne : w ≠ []) :
    ∃ g, parse c g0 w = .ok g ∧ g.nbterms ≤ w.length ∧
      (g.nbterms = w.length →
        ∀ (i x y : Nat), w[i]? = some x → w[i + 1]? = some y →
          classify x ≠ classify y) := by
  obtain ⟨g, hg, _, _, hnb, _⟩ := parse_spec hws hfit hcs
  refine ⟨g, hg, ?_, ?_⟩
  · rw [hnb]; exact changes_lt_length w hne
  · intro h i x y hx hy
    rw [hnb] at h
    exact chain_getElem? (changes_eq_length w h) i x y hx hy

/-- C6 (amended) at the word `"a1!"` with `TERM_T = 4`, 5 characters in `g.base` and 3 rows. -/
theorem parse_count_bound_witness :
    WellSized ⟨4, 5, 3⟩ (blank ⟨4, 5, 3⟩ 255) ∧ Fits ⟨4, 5, 3⟩ [97, 49, 33] ∧
      CString [97, 49, 33] ∧ [97, 49, 33] ≠ [] ∧
      ∃ g, parse ⟨4, 5, 3⟩ (blank ⟨4, 5, 3⟩ 255) [97, 49, 33] = .ok g ∧
        g.nbterms ≤ [97, 49, 33].length ∧
        (g.nbterms = [97, 49, 33].length →
          ∀ (i x y : Nat), [97, 49, 33][i]? = some x → [97, 49, 33][i + 1]? = some y →
            classify x ≠ classify y) :=
  ⟨by decide, by decide, by decide, by decide,
    parse_count_bound ⟨4, 5, 3⟩ (blank ⟨4, 5, 3⟩ 255) [97, 49, 33]
      (by decide) (by decide) (by decide) (by decide)⟩

/-- C7, as stated, fails: on the empty word `parse` returns `nbterms = 1`, not
zero terms. -/
theorem parse_empty_counterexample :
    WellSized ⟨1, 1, 1⟩ (blank ⟨1, 1, 1⟩ 255) ∧ Fits ⟨1, 1, 1⟩ [] ∧
      parse ⟨1, 1, 1⟩ (blank ⟨1, 1, 1⟩ 255) [] = .ok ⟨[0], [[0]], 1⟩ ∧
      gramm.nbterms ⟨[0], [[0]], 1⟩ ≠ 0 := by
  decide

/-- C7 (amended): on the empty word `parse` returns zero classes (`base` is the
empty string) and exactly one term, the empty string (`nbterms = 1`). -/
theorem parse_empty (c : Caps) (g0 : gramm)
    (hws : WellSized c g0) (hfit : Fits c []) :
    ∃ g, parse c g0 [] = .ok g ∧ cstr g.base = [] ∧ g.nbterms = 1 ∧ termsOf g = [[]] := by
  obtain ⟨g, hg, _, ⟨tl, htl⟩, hnb, hterms⟩ :=
    parse_spec hws hfit (fun b hb => absurd hb (List.not_mem_nil b))
  refine ⟨g, hg, ?_, ?_, ?_⟩
  · rw [htl]; simp [cstr]
  · rw [hnb]; simp [changes]
  · rw [hterms]; rfl

/-- C7 (amended) with `TERM_T = 2`, 3 characters in `g.base` and 4 rows. -/
theorem parse_empty_witness :
    WellSized ⟨2, 3, 4⟩ (blank ⟨2, 3, 4⟩ 255) ∧ Fits ⟨2, 3, 4⟩ [] ∧
      ∃ g, parse ⟨2, 3, 4⟩ (blank ⟨2, 3, 4⟩ 255) [] = .ok g ∧ cstr g.base = [] ∧
        g.nbterms = 1 ∧ termsOf g = [[]] :=
  ⟨by decide, by decide,
    parse_empty ⟨2, 3, 4⟩ (blank ⟨2, 3, 4⟩ 255) (by decide) (by decide)⟩

theorem result_of_spec {c : Caps} {g0 : gramm} {w : List Nat}
    (hws : WellSized c g0) (hfit : Fits c w) (hcs : CString w) (B : List Nat)
    (T : List (List Nat)) (hB : w.map classify = B) (hT : (specParse w).terms = T) :
    ∃ g, parse c g0 w = .ok g ∧ cstr g.base = B ∧ termsOf g = T ∧ g.nbterms = T.length := by
  obtain ⟨g, hg, _, ⟨tl, htl⟩, hnb, hterms⟩ := parse_spec hws hfit hcs
  refine ⟨g, hg, ?_, ?_, ?_⟩
  · rw [htl, cstr_classes, hB]
  · rw [hterms, hT]
  · rw [hnb, ← hT, spec_length]

theorem fits_of_le {c : Caps} {w : List Nat} (n k : Nat) (hn : w.length = n)
    (hk : changes w + 1 = k) (hT : n < c.TERM_T) (hB : n < c.BASE_T) (hN : k ≤ c.NB_TERMS) :
    Fits c w := by
  unfold Fits; omega

/-- C8 (documented scenarios): with capacities large enough for these words
(more than 11 characters in `term` and `g.base`, at least 4 rows in `g.terms`),
`"abc123"` gives `"LLLDDD"` and `["abc","123"]`, `"a1b2"` gives `"LDLD"` and
`["a","1","b","2"]`, `"hello-world"` gives `"LLLLLSLLLLL"` and
`["hello","-","world"]`, `"123"` gives `"DDD"` and `["123"]`, `"A1!b"` gives
`"LDSL"` and `["A","1","!","b"]`, each with `nbterms` the number of terms. -/
theorem parse_scenarios (c : Caps) (g0 : gramm) (hws : WellSized c g0)
    (hT : 11 < c.TERM_T) (hB : 11 < c.BASE_T) (hN : 4 ≤ c.NB_TERMS) :
    (∃ g, parse c g0 (bytes "abc123") = .ok g ∧ cstr g.base = bytes "LLLDDD" ∧
        termsOf g = [bytes "abc", bytes "123"] ∧ g.nbterms = 2) ∧
    (∃ g, parse c g0 (bytes "a1b2") = .ok g ∧ cstr g.base = bytes "LDLD" ∧
        termsOf g = [bytes "a", bytes "1", bytes "b", bytes "2"] ∧ g.nbterms = 4) ∧
    (∃ g, parse c g0 (bytes "hello-world") = .ok g ∧ cstr g.base = bytes "LLLLLSLLLLL" ∧
        termsOf g = [bytes "hello", bytes "-", bytes "world"] ∧ g.nbterms = 3) ∧
    (∃ g, parse c g0 (bytes "123") = .ok g ∧ cstr g.base = bytes "DDD" ∧
        termsOf g = [bytes "123"] ∧ g.nbterms = 1) ∧
    (∃ g, parse c g0 (bytes "A1!b") = .ok g ∧ cstr g.base = bytes "LDSL" ∧
        termsOf g = [bytes "A", bytes "1", bytes "!", bytes "b"] ∧ g.nbterms = 4) := by
  refine ⟨?_, ?_, ?_, ?_, ?_⟩
  · exact result_of_spec hws
      (fits_of_le 6 2 (by decide) (by decide) (by omega) (by omega) (by omega))
      (by decide) _ _ (by decide) (by decide)
  · exact result_of_spec hws
      (fits_of_le 4 4 (by decide) (by decide) (by omega) (by omega) (by omega))
      (by decide) _ _ (by decide) (by decide)
  · exact result_of_spec hws
      (fits_of_le 11 3 (by decide) (by decide) (by omega) (by omega) (by omega))
      (by decide) _ _ (by decide) (by decide)
  · exact result_of_spec hws
      (fits_of_le 3 1 (by decide) (by decide) (by omega) (by omega) (by omega))
      (by decide) _ _ (by decide) (by decide)
  · exact result_of_spec hws
      (fits_of_le 4 4 (by decide) (by decide) (by omega) (by omega) (by omega))
      (by decide) _ _ (by decide) (by decide)

/-- C8 with `TERM_T = 12`, 12 characters in `g.base` and 4 rows. -/
theorem parse_scenarios_witness :
    WellSized ⟨12, 12, 4⟩ (blank ⟨12, 12, 4⟩ 255) ∧ 11 < Caps.TERM_T ⟨12, 12, 4⟩ ∧
      11 < Caps.BASE_T ⟨12, 12, 4⟩ ∧ 4 ≤ Caps.NB_TERMS ⟨12, 12, 4⟩ ∧
      ((∃ g, parse ⟨12, 12, 4⟩ (blank ⟨12, 12, 4⟩ 255) (bytes "abc123") = .ok g ∧
          cstr g.base = bytes "LLLDDD" ∧
          termsOf g = [bytes "abc", bytes "123"] ∧ g.nbterms = 2) ∧
        (∃ g, parse ⟨12, 12, 4⟩ (blank ⟨12, 12, 4⟩ 255) (bytes "a1b2") = .ok g ∧
          cstr g.base = bytes "LDLD" ∧
          termsOf g = [bytes "a", bytes "1", bytes "b", bytes "2"] ∧ g.nbterms = 4) ∧
        (∃ g, parse ⟨12, 12, 4⟩ (blank ⟨12, 12, 4⟩ 255) (bytes "hello-world") = .ok g ∧
          cstr g.base = bytes "LLLLLSLLLLL" ∧
          termsOf g = [bytes "hello", bytes "-", bytes "world"] ∧ g.nbterms = 3) ∧
        (∃ g, parse ⟨12, 12, 4⟩ (blank ⟨12, 12, 4⟩ 255) (bytes "123") = .ok g ∧
          cstr g.base = bytes "DDD" ∧
          termsOf g = [bytes "123"] ∧ g.nbterms = 1) ∧
        (∃ g, parse ⟨12, 12, 4⟩ (blank ⟨12, 12, 4⟩ 255) (bytes "A1!b") = .ok g ∧
          cstr g.base = bytes "LDSL" ∧
          termsOf g = [bytes "A", bytes "1", bytes "!", bytes "b"] ∧ g.nbterms = 4)) :=
  ⟨by decide, by decide, by decide, by decide,
    parse_scenarios ⟨12, 12, 4⟩ (blank ⟨12, 12, 4⟩ 255) (by decide) (by decide) (by decide)
      (by decide)⟩

/-- C9 fails on the code: with `TERM_T = 2`, a `g.base` of 8 characters and 8
rows in `g.terms`, the word `"a1"` has 2 runs, each of 1 character, shorter
than `TERM_T`, and its length fits `g.base`; yet `parse` goes out of bounds.
After the first iteration `i = 1` and `term` holds `'a'`, `0`; the second
iteration sees a class change and line 19 writes `term[i+1]`, outside the 2
cells of `term`.  Without that line the run stays in bounds and returns the
terms `"a"` and `"1"`. -/
theorem parse_oob_short_runs :
    WellSized ⟨2, 8, 8⟩ (blank ⟨2, 8, 8⟩ 255) ∧ CString [97, 49] ∧
      (runs [97, 49]).length ≤ Caps.NB_TERMS ⟨2, 8, 8⟩ ∧
      (∀ r ∈ runs [97, 49], r.length < Caps.TERM_T ⟨2, 8, 8⟩) ∧
      [97, 49].length < Caps.BASE_T ⟨2, 8, 8⟩ ∧
      parse ⟨2, 8, 8⟩ (blank ⟨2, 8, 8⟩ 255) [97, 49] = .error .oob ∧
      (enter ⟨2, 8, 8⟩ (blank ⟨2, 8, 8⟩ 255) [205, 205] >>= fun s0 =>
        body ⟨2, 8, 8⟩ [97, 49] s0 >>= fun s1 =>
          pure (s1.i, s1.chain_length, s1.term)) = .ok (1, 1, [97, 0]) ∧
      store [97, 0] (1 + 1) 0 = .error .oob ∧
      (parse_no19 ⟨2, 8, 8⟩ (blank ⟨2, 8, 8⟩ 255) [97, 49]).toOption.map termsOf =
        some [[97], [49]] := by
  decide

/-! ## Line 19 -/

theorem line19_noop (c : Caps) (s : St) (buf : List Nat)
    (hterm : s.term = buf ++ List.replicate (c.TERM_T - buf.length) 0)
    (hbi : buf.length ≤ s.i) (hiT : s.i + 1 < c.TERM_T) :
    store s.term (s.i + 1) 0 = .ok s.term := by
  have htl : s.term.length = c.TERM_T := by
    rw [hterm]; simp only [List.length_append, List.length_replicate]; omega
  rw [store_ok _ (by omega), set_same]
  rw [hterm]
  exact getElem?_append_replicate buf _ _ (by omega) (by omega)

theorem flush_eq_no19 {c : Caps} {s : St} (h : store s.term (s.i + 1) 0 = .ok s.term) :
    flush_no19 c s = flush c s := by
  simp only [flush, flush_no19, bind, Except.bind, h]

theorem body_eq_no19 {c : Caps} {w pre rest : List Nat} {ch : Nat} {s : St} {a : Acc}
    (hw : w = pre ++ ch :: rest) (hfit : Fits c w) (hinv : Inv pre a) (hsim : Sim c s a) :
    body_no19 c w s = body c w s := by
  obtain ⟨hT, hB, hN⟩ := hfit
  have hlen : w.length = pre.length + 1 + rest.length := by
    subst hw; simp only [List.length_append, List.length_cons]; omega
  have hi : s.i = pre.length := by rw [hsim.i_eq, hinv.classes_eq]; simp
  have hbl := hinv.buf_length_le
  have hfe : ∀ b : List Nat,
      flush_no19 c { s with g := { s.g with base := b } } =
        flush c { s with g := { s.g with base := b } } := fun b =>
    flush_eq_no19 (line19_noop c { s with g := { s.g with base := b } } a.buf
      hsim.term_eq (by simp only; omega) (by simp only; omega))
  simp only [body, body_no19, hfe]

theorem loop_eq_no19 {c : Caps} {w : List Nat} (hfit : Fits c w) (hcs : CString w) :
    ∀ (rest pre : List Nat) (s : St) (a : Acc) (fuel : Nat),
      w = pre ++ rest → Inv pre a → Sim c s a →
      loop_no19 c w fuel s = loop c w fuel s := by
  intro rest
  induction rest with
  | nil =>
    intro pre s a fuel hw hinv hsim
    cases fuel with
    | zero => rfl
    | succ n =>
      have hi : s.i = w.length := by
        rw [hsim.i_eq, hinv.classes_eq, hw]; simp
      have h0 : wordAt w s.i = 0 := by
        unfold wordAt; rw [hi]; exact List.getD_eq_default _ _ (Nat.le_refl _)
      unfold loop loop_no19
      simp [h0]
  | cons ch rest ih =>
    intro pre s a fuel hw hinv hsim
    cases fuel with
    | zero => rfl
    | succ n =>
      obtain ⟨s1, hb, hsim1⟩ := sim_body hw hfit hcs hinv hsim
      have hb2 : body_no19 c w s = .ok s1 := by rw [body_eq_no19 hw hfit hinv hsim, hb]
      have := ih (pre ++ [ch]) s1 (specStep a ch) n (by rw [hw]; simp) (hinv.step ch) hsim1
      unfold loop loop_no19
      simp only [hb, hb2, this]

theorem parse_eq_no19 {c : Caps} {g0 : gramm} {w : List Nat}
    (hws : WellSized c g0) (hfit : Fits c w) (hcs : CString w) :
    parse_no19 c g0 w = parse c g0 w := by
  obtain ⟨s0, he, hsim0⟩ := sim_enter (c := c) hws
  have := loop_eq_no19 hfit hcs w [] s0 ⟨[], [], []⟩ (w.length + 1) rfl Inv.init hsim0
  simp only [parse, parse_no19, bind, Except.bind, he, this]

/-- C10 (agreement with the specified algorithm): on every word of length less
than `TERM_T` that fits the other capacities, `parse` returns exactly the
classes and the terms of the algorithm of section 4.1, and the code with line
19 (`term[i+1] = 0`) removed returns the same `gramm`. -/
theorem parse_refines_spec (c : Caps) (g0 : gramm) (w : List Nat)
    (hws : WellSized c g0) (hfit : Fits c w) (hcs : CString w) :
    ∃ g, parse c g0 w = .ok g ∧
      cstr g.base = (specParse w).classes.map tagChar ∧
      termsOf g = (specParse w).terms ∧ g.nbterms = (specParse w).terms.length ∧
      parse_no19 c g0 w = .ok g := by
  obtain ⟨g, hg, _, ⟨tl, htl⟩, hnb, hterms⟩ := parse_spec hws hfit hcs
  refine ⟨g, hg, ?_, hterms, ?_, ?_⟩
  · rw [htl, cstr_classes]
    simp only [specParse]
    rw [(Inv.scan w).classes_eq, map_classify]
  · rw [hnb, spec_length]
  · rw [parse_eq_no19 hws hfit hcs, hg]

/-- C10 at the word `"ab1-"` with `TERM_T = 5`, 6 characters in `g.base` and 3 rows. -/
theorem parse_refines_spec_witness :
    WellSized ⟨5, 6, 3⟩ (blank ⟨5, 6, 3⟩ 255) ∧ Fits ⟨5, 6, 3⟩ [97, 98, 49, 45] ∧
      CString [97, 98, 49, 45] ∧
      ∃ g, parse ⟨5, 6, 3⟩ (blank ⟨5, 6, 3⟩ 255) [97, 98, 49, 45] = .ok g ∧
        cstr g.base = (specParse [97, 98, 49, 45]).classes.map tagChar ∧
        termsOf g = (specParse [97, 98, 49, 45]).terms ∧
        g.nbterms = (specParse [97, 98, 49, 45]).terms.length ∧
        parse_no19 ⟨5, 6, 3⟩ (blank ⟨5, 6, 3⟩ 255) [97, 98, 49, 45] = .ok g :=
  ⟨by decide, by decide, by decide,
    parse_refines_spec ⟨5, 6, 3⟩ (blank ⟨5, 6, 3⟩ 255) [97, 98, 49, 45]
      (by decide) (by decide) (by decide)⟩

/-! ## Empty input -/

/-- C12 (reference behaviour on empty input): `parse("")` returns
`nbterms = 1`, `terms[0]` is the empty string, and `base` is the empty string,
its terminator being at `base[0]`. -/
theorem parse_empty_reference (c : Caps) (g0 : gramm)
    (hws : WellSized c g0) (hfit : Fits c []) :
    ∃ g, parse c g0 [] = .ok g ∧ g.nbterms = 1 ∧ g.terms[0]?.map cstr = some [] ∧
      cstr g.base = [] ∧ g.base[0]? = some 0 := by
  obtain ⟨g, hg, _, ⟨tl, htl⟩, hnb, hterms⟩ :=
    parse_spec hws hfit (fun b hb => absurd hb (List.not_mem_nil b))
  have hnb1 : g.nbterms = 1 := by rw [hnb]; simp [changes]
  refine ⟨g, hg, hnb1, ?_, ?_, ?_⟩
  · have h1 : termsOf g = [[]] := by rw [hterms]; rfl
    unfold termsOf at h1
    rw [hnb1] at h1
    cases hrows : g.terms with
    | nil => rw [hrows] at h1; simp at h1
    | cons r rs =>
      rw [hrows] at h1
      simp only [List.take_succ_cons, List.take_zero, List.map_cons, List.map_nil,
        List.cons.injEq, and_true] at h1
      simp [h1]
  · rw [htl]; simp [cstr]
  · rw [htl]; simp

/-- C12 with `TERM_T = 2`, 3 characters in `g.base` and 4 rows. -/
theorem parse_empty_reference_witness :
    WellSized ⟨2, 3, 4⟩ (blank ⟨2, 3, 4⟩ 255) ∧ Fits ⟨2, 3, 4⟩ [] ∧
      ∃ g, parse ⟨2, 3, 4⟩ (blank ⟨2, 3, 4⟩ 255) [] = .ok g ∧ g.nbterms = 1 ∧
        g.terms[0]?.map cstr = some [] ∧ cstr g.base = [] ∧ g.base[0]? = some 0 :=
  ⟨by decide, by decide,
    parse_empty_reference ⟨2, 3, 4⟩ (blank ⟨2, 3, 4⟩ 255) (by decide) (by decide)⟩

/-! ## Term boundaries and exact count -/

theorem Inv.nil_eq {a : Acc} (h : Inv [] a) : a = ⟨[], [], []⟩ := by
  have hc : a.classes = [] := by simpa using h.classes_eq
  have hb : a.buf = [] := by
    have := h.join_eq
    simp only [List.append_eq_nil] at this
    exact this.2
  have ht : a.terms = [] := by
    have := h.count
    simpa [changes] using this
  cases a
  simp_all

theorem specStep_snoc {p : List Nat} {x : Nat} {a : Acc} (h : Inv (p ++ [x]) a) (ch : Nat) :
    specStep a ch =
      if classify x = classify ch then
        { classes := a.classes ++ [tagOf ch], terms := a.terms, buf := a.buf ++ [ch] }
      else
        { classes := a.classes ++ [tagOf ch], terms := a.terms ++ [a.buf], buf := [ch] } := by
  have hc : a.classes = p.map tagOf ++ [tagOf x] := by simpa using h.classes_eq
  have hidx : a.classes[a.classes.length - 1]? = some (tagOf x) := by
    rw [← List.getLast?_eq_getElem?]; simp [hc]
  have hpos : 0 < a.classes.length := by simp [hc]
  by_cases hx : classify x = classify ch
  · have ht := (classify_eq_iff x ch).1 hx
    rw [if_pos hx]
    simp [specStep, hidx, ht]
  · have ht : tagOf x ≠ tagOf ch := fun e => hx ((classify_eq_iff x ch).2 e)
    rw [if_neg hx]
    simp [specStep, hidx, ht, hpos]

theorem scan_induction (P : List Nat → Acc → Prop) (h0 : P [] ⟨[], [], []⟩)
    (hstep : ∀ pre a ch, Inv pre a → P pre a → P (pre ++ [ch]) (specStep a ch)) :
    ∀ w, P w (specScan w) := by
  have key : ∀ (rest pre : List Nat) (a : Acc), Inv pre a → P pre a →
      P (pre ++ rest) (rest.foldl specStep a) := by
    intro rest
    induction rest with
    | nil => intro pre a _ hp; simpa using hp
    | cons ch rest ih =>
      intro pre a hinv hp
      have := ih (pre ++ [ch]) (specStep a ch) (hinv.step ch) (hstep pre a ch hinv hp)
      simpa using this
  intro w
  have := key w [] ⟨[], [], []⟩ Inv.init h0
  simpa [specScan] using this

theorem offsets_snoc (T : List (List Nat)) (b : List Nat) :
    ∀ o, offsets o (T ++ [b]) = offsets o T ++ [o + T.flatten.length] := by
  induction T with
  | nil => intro o; simp [offsets]
  | cons t T ih =>
    intro o
    show o :: offsets (o + t.length) (T ++ [b]) =
      o :: offsets (o + t.length) T ++ [o + (t ++ T.flatten).length]
    rw [ih, List.length_append, Nat.add_assoc]
    rfl

theorem length_offsets (T : List (List Nat)) : ∀ o, (offsets o T).length = T.length := by
  induction T with
  | nil => intro o; rfl
  | cons t T ih => intro o; simp [offsets, ih]

theorem getD_append_lt (l r : List Nat) (i : Nat) (h : i < l.length) :
    (l ++ r).getD i 0 = l.getD i 0 := by
  rw [List.getD_eq_getElem?_getD, List.getD_eq_getElem?_getD, List.getElem?_append_left h]

theorem getD_append_length (l : List Nat) (v : Nat) : (l ++ [v]).getD l.length 0 = v := by
  rw [List.getD_eq_getElem?_getD, List.getElem?_append_right (Nat.le_refl _)]
  simp

theorem changePositions_single (ch : Nat) : changePositions [ch] = [] := by
  simp [changePositions, List.range_succ]

theorem changePositions_snoc (p : List Nat) (x ch : Nat) :
    changePositions (p ++ [x] ++ [ch]) =
      changePositions (p ++ [x]) ++ (if classify x = classify ch then [] else [p.length + 1]) := by
  unfold changePositions
  have hl : (p ++ [x] ++ [ch]).length = (p ++ [x]).length + 1 := by simp
  have hl2 : (p ++ [x]).length = p.length + 1 := by simp
  rw [hl, List.range_succ, List.filter_append]
  congr 1
  · apply List.filter_congr
    intro i hi
    rw [List.mem_range] at hi
    rw [getD_append_lt (p ++ [x]) [ch] i hi, getD_append_lt (p ++ [x]) [ch] (i - 1) (by omega)]
  · have h1 : (p ++ [x] ++ [ch]).getD (p ++ [x]).length 0 = ch := getD_append_length _ _
    have h2 : (p ++ [x] ++ [ch]).getD ((p ++ [x]).length - 1) 0 = x := by
      rw [getD_append_lt (p ++ [x]) [ch] _ (by rw [hl2]; omega), hl2, Nat.add_sub_cancel]
      exact getD_append_length p x
    simp only [List.filter_cons, List.filter_nil, h1, h2]
    by_cases hx : classify x = classify ch
    · simp [hx]
    · have hx2 : ¬ classify ch = classify x := fun e => hx e.symm
      simp [hx, hx2]

theorem offsets_scan (w : List Nat) :
    offsets 0 ((specScan w).terms ++ [(specScan w).buf]) = 0 :: changePositions w := by
  apply scan_induction
    (fun pre a => offsets 0 (a.terms ++ [a.buf]) = 0 :: changePositions pre)
  · simp [offsets, changePositions]
  · intro pre a ch hinv hp
    rcases List.eq_nil_or_concat pre with hpre | ⟨p, x, hpre⟩
    · subst hpre
      rw [hinv.nil_eq]
      simp [specStep, offsets, changePositions_single]
    · rw [List.concat_eq_append] at hpre
      subst hpre
      rw [specStep_snoc hinv ch, changePositions_snoc]
      rw [offsets_snoc] at hp
      by_cases hx : classify x = classify ch
      · simp only [if_pos hx, List.append_nil]
        rw [offsets_snoc]; exact hp
      · simp only [if_neg hx]
        rw [offsets_snoc, offsets_snoc, hp]
        have hlen := congrArg List.length hinv.join_eq
        simp only [List.length_append, List.length_singleton] at hlen
        simp only [List.flatten_append, List.flatten_cons, List.flatten_nil, List.append_nil,
          List.length_append, Nat.zero_add, List.cons_append]
        rw [hlen]

theorem changes_eq_positions (w : List Nat) : changes w = (changePositions w).length := by
  have h1 := congrArg List.length (offsets_scan w)
  rw [length_offsets, List.length_append, List.length_singleton, List.length_cons,
    (Inv.scan w).count] at h1
  omega

theorem mem_changePositions (w : List Nat) (p : Nat) :
    p ∈ changePositions w ↔
      0 < p ∧ p < w.length ∧ classify (w.getD p 0) ≠ classify (w.getD (p - 1) 0) := by
  simp only [changePositions, List.mem_filter, List.mem_range, decide_eq_true_eq]
  constructor
  · rintro ⟨h1, h2, h3⟩; exact ⟨h2, h1, h3⟩
  · rintro ⟨h1, h2, h3⟩; exact ⟨h2, h1, h3⟩

/-- C11 (term boundaries): on every non-empty word that fits the buffers, the
offsets at which the returned terms start (the partial sums of the term
lengths) are, in order, position 0 and then every position `i > 0` at which
the class of `w[i]` differs from the class of `w[i-1]`: a position is a term
start exactly when it is 0 or such a class change. -/
theorem parse_boundaries (c : Caps) (g0 : gramm) (w : List Nat)
    (hws : WellSized c g0) (hfit : Fits c w) (hcs : CString w) (_hne : w ≠ []) :
    ∃ g, parse c g0 w = .ok g ∧ (termsOf g).length = g.nbterms ∧
      offsets 0 (termsOf g) = 0 :: changePositions w ∧
      ∀ p, p ∈ offsets 0 (termsOf g) ↔
        (p = 0 ∨ (0 < p ∧ p < w.length ∧
          classify (w.getD p 0) ≠ classify (w.getD (p - 1) 0))) := by
  obtain ⟨g, hg, _, _, hnb, hterms⟩ := parse_spec hws hfit hcs
  have hoff : offsets 0 (termsOf g) = 0 :: changePositions w := by
    rw [hterms]; exact offsets_scan w
  refine ⟨g, hg, by rw [hterms, spec_length, hnb], hoff, ?_⟩
  intro p
  rw [hoff, List.mem_cons, mem_changePositions]

/-- C11 at the word `"ab1-"` with `TERM_T = 5`, 6 characters in `g.base` and 3
rows. -/
theorem parse_boundaries_witness :
    WellSized ⟨5, 6, 3⟩ (blank ⟨5, 6, 3⟩ 255) ∧ Fits ⟨5, 6, 3⟩ [97, 98, 49, 45] ∧
      CString [97, 98, 49, 45] ∧ [97, 98, 49, 45] ≠ [] ∧
      ∃ g, parse ⟨5, 6, 3⟩ (blank ⟨5, 6, 3⟩ 255) [97, 98, 49, 45] = .ok g ∧
        (termsOf g).length = g.nbterms ∧
        offsets 0 (termsOf g) = 0 :: changePositions [97, 98, 49, 45] ∧
        ∀ p, p ∈ offsets 0 (termsOf g) ↔
          (p = 0 ∨ (0 < p ∧ p < [97, 98, 49, 45].length ∧
            classify ([97, 98, 49, 45].getD p 0) ≠
              classify ([97, 98, 49, 45].getD (p - 1) 0))) :=
  ⟨by decide, by decide, by decide, by decide,
    parse_boundaries ⟨5, 6, 3⟩ (blank ⟨5, 6, 3⟩ 255) [97, 98, 49, 45]
      (by decide) (by decide) (by decide) (by decide)⟩

/-- C15 (exact term count): on every word `w` that fits the buffers, the empty
word included, `nbterms` is 1 plus the number of positions `i` with
`0 < i < length w` at which the class of `w[i]` differs from the class of
`w[i-1]`. -/
theorem parse_exact_count (c : Caps) (g0 : gramm) (w : List Nat)
    (hws : WellSized c g0) (hfit : Fits c w) (hcs : CString w) :
    ∃ g, parse c g0 w = .ok g ∧
      g.nbterms = 1 + ((List.range w.length).filter (fun i =>
        decide (0 < i ∧ classify (w.getD i 0) ≠ classify (w.getD (i - 1) 0)))).length := by
  obtain ⟨g, hg, _, _, hnb, _⟩ := parse_spec hws hfit hcs
  refine ⟨g, hg, ?_⟩
  rw [hnb, changes_eq_positions, Nat.add_comm]
  rfl

/-- C15 at the word `"ab1-"` with `TERM_T = 5`, 6 characters in `g.base` and 3
rows. -/
theorem parse_exact_count_witness :
    WellSized ⟨5, 6, 3⟩ (blank ⟨5, 6, 3⟩ 255) ∧ Fits ⟨5, 6, 3⟩ [97, 98, 49, 45] ∧
      CString [97, 98, 49, 45] ∧
      ∃ g, parse ⟨5, 6, 3⟩ (blank ⟨5, 6, 3⟩ 255) [97, 98, 49, 45] = .ok g ∧
        g.nbterms = 1 + ((List.range [97, 98, 49, 45].length).filter (fun i =>
          decide (0 < i ∧ classify ([97, 98, 49, 45].getD i 0) ≠
            classify ([97, 98, 49, 45].getD (i - 1) 0)))).length :=
  ⟨by decide, by decide, by decide,
    parse_exact_count ⟨5, 6, 3⟩ (blank ⟨5, 6, 3⟩ 255) [97, 98, 49, 45]
      (by decide) (by decide) (by decide)⟩

/-! ## Runs -/

theorem runs_cons (a : Nat) (rest : List Nat) :
    runs (a :: rest) =
      match runs rest with
      | (b :: r) :: rs =>
        if classify a = classify b then (a :: b :: r) :: rs else [a] :: (b :: r) :: rs
      | _ => [[a]] := by
  rw [runs]

theorem runs_head (b : Nat) (rest : List Nat) :
    ∃ r rs, runs (b :: rest) = (b :: r) :: rs := by
  rw [runs_cons]
  split
  · split
    · exact ⟨_, _, rfl⟩
    · exact ⟨_, _, rfl⟩
  · exact ⟨_, _, rfl⟩

theorem runs_cons_cons (a b : Nat) (rest : List Nat) :
    ∃ r rs, runs (b :: rest) = (b :: r) :: rs ∧
      runs (a :: b :: rest) =
        if classify a = classify b then (a :: b :: r) :: rs else [a] :: (b :: r) :: rs := by
  obtain ⟨r, rs, h⟩ := runs_head b rest
  refine ⟨r, rs, h, ?_⟩
  rw [runs_cons a (b :: rest), h]

theorem runs_length (w : List Nat) (hw : w ≠ []) : (runs w).length = changes w + 1 := by
  induction w with
  | nil => exact absurd rfl hw
  | cons a w ih =>
    cases w with
    | nil => simp [runs, changes]
    | cons b w =>
      obtain ⟨r, rs, h1, h2⟩ := runs_cons_cons a b w
      have := ih (by simp)
      rw [h1] at this
      rw [h2, changes_cons_cons]
      split_ifs
      · simp only [List.length_cons] at this ⊢; omega
      · simp only [List.length_cons] at this ⊢; omega

/-! ## The states of the loop -/

theorem sim_iterate {c : Caps} {w : List Nat} (hfit : Fits c w) (hcs : CString w) :
    ∀ (mid pre : List Nat) (s : St) (a : Acc) (rest : List Nat),
      w = pre ++ mid ++ rest → Inv pre a → Sim c s a →
      ∃ s1, iterate c w mid.length s = .ok s1 ∧ Sim c s1 (mid.foldl specStep a) ∧
        ∀ f, loop c w (mid.length + f) s = loop c w f s1 := by
  intro mid
  induction mid with
  | nil =>
    intro pre s a rest _ _ hsim
    exact ⟨s, rfl, by simpa using hsim, fun f => by simp⟩
  | cons ch mid ih =>
    intro pre s a rest hw hinv hsim
    have hw1 : w = pre ++ ch :: (mid ++ rest) := by rw [hw]; simp
    have hi : s.i = pre.length := by
      rw [hsim.i_eq, hinv.classes_eq]; simp
    have hch : wordAt w s.i = ch := by
      rw [hi, hw1]; unfold wordAt
      rw [List.getD_eq_getElem?_getD, List.getElem?_append_right (Nat.le_refl _)]
      simp
    have hne : ch ≠ 0 := hcs ch (by rw [hw1]; simp)
    obtain ⟨s1, hb, hsim1⟩ := sim_body hw1 hfit hcs hinv hsim
    obtain ⟨s2, hit, hsim2, hloop⟩ := ih (pre ++ [ch]) s1 (specStep a ch) rest
      (by rw [hw]; simp) (hinv.step ch) hsim1
    refine ⟨s2, ?_, by simpa using hsim2, ?_⟩
    · simp only [List.length_cons, iterate, hb, hit]
    · intro f
      have e : (ch :: mid).length + f = (mid.length + f) + 1 := by
        simp only [List.length_cons]; omega
      rw [e]
      conv => lhs; unfold loop
      simp only [hch, hb, ← hloop f]
      simp [hne]

theorem stateAt_sim {c : Caps} {g0 : gramm} {w : List Nat}
    (hws : WellSized c g0) (hfit : Fits c w) (hcs : CString w) (k : Nat) (hk : k ≤ w.length) :
    ∃ s0 s, enter c g0 (List.replicate c.TERM_T 205) = .ok s0 ∧ stateAt c g0 w k = .ok s ∧
      Sim c s (specScan (w.take k)) ∧
      loop c w (w.length + 1) s0 = loop c w (w.length + 1 - k) s := by
  obtain ⟨s0, he, hsim0⟩ := sim_enter (c := c) hws
  have hlen : (w.take k).length = k := by simp [hk]
  obtain ⟨s, hit, hsim, hloop⟩ := sim_iterate hfit hcs (w.take k) [] s0 ⟨[], [], []⟩
    (w.drop k) (by simp) Inv.init hsim0
  rw [hlen] at hit hloop
  refine ⟨s0, s, he, ?_, hsim, ?_⟩
  · simp only [stateAt, bind, Except.bind, he, hit]
  · have := hloop (w.length + 1 - k)
    rw [← this]
    congr 1
    omega

/-- The facts that hold of the program state at the start of iteration `k`
(at loop exit when `k = length w`), for a word that fits the buffers. -/
theorem stateAt_facts {c : Caps} {g0 : gramm} {w : List Nat}
    (hws : WellSized c g0) (hfit : Fits c w) (hcs : CString w) (k : Nat) (hk : k ≤ w.length) :
    ∃ s0 s buf, enter c g0 (List.replicate c.TERM_T 205) = .ok s0 ∧
      stateAt c g0 w k = .ok s ∧
      loop c w (w.length + 1) s0 = loop c w (w.length + 1 - k) s ∧
      s.i = k ∧ s.chain_length = buf.length ∧ buf.length ≤ k ∧
      buf = (w.drop (k - buf.length)).take buf.length ∧
      s.term = buf ++ List.replicate (c.TERM_T - buf.length) 0 ∧
      Homogeneous buf ∧ (∀ x ∈ buf, x ≠ 0) ∧ (0 < k → 0 < buf.length) ∧
      (buf.length < k → ∀ x ∈ buf, classify (w.getD (k - buf.length - 1) 0) ≠ classify x) ∧
      s.g.nbterms + 1 ≤ c.NB_TERMS ∧ s.g.base.length = c.BASE_T ∧
      s.g.terms.length = c.NB_TERMS ∧ (∀ row ∈ s.g.terms, row.length = c.TERM_T) := by
  obtain ⟨s0, s, he, hst, hsim, hloop⟩ := stateAt_sim hws hfit hcs k hk
  have hinv := Inv.scan (w.take k)
  generalize specScan (w.take k) = a at hsim hinv
  have hlen : (w.take k).length = k := by simp [hk]
  have hbl : a.buf.length ≤ k := by
    have := hinv.buf_length_le; rwa [hlen] at this
  have hw : a.terms.flatten ++ a.buf ++ w.drop k = w := by
    rw [hinv.join_eq, List.take_append_drop]
  have hX : a.terms.flatten.length = k - a.buf.length := by
    have := congrArg List.length hinv.join_eq
    rw [List.length_append, hlen] at this
    omega
  obtain ⟨hT, hB, hN⟩ := hfit
  refine ⟨s0, s, a.buf, he, hst, hloop, ?_, hsim.chain_eq, hbl, ?_,
    hsim.term_eq, ?_, ?_, ?_, ?_, ?_, hsim.base_len, hsim.rows_len, hsim.row_len⟩
  · rw [hsim.i_eq, hinv.classes_eq, List.length_map, hlen]
  · have h1 : a.buf =
        ((a.terms.flatten ++ a.buf ++ w.drop k).drop a.terms.flatten.length).take
          a.buf.length := by
      rw [List.append_assoc, List.drop_left, List.take_left]
    rw [hw, hX] at h1
    exact h1
  · intro x hx y hy
    have h1 := hinv.buf_tag x hx
    have h2 := hinv.buf_tag y hy
    rw [h1] at h2
    exact (classify_eq_iff x y).2 (Option.some.inj h2)
  · intro x hx
    exact hcs x (List.mem_of_mem_take (hinv.buf_subset x hx))
  · intro h0
    have hne : w.take k ≠ [] := by
      intro e; rw [e] at hlen; simp at hlen; omega
    exact List.length_pos.2 (hinv.buf_ne hne)
  · intro hlt x hx
    have hXpos : 0 < a.terms.flatten.length := by omega
    rcases List.eq_nil_or_concat a.terms with ht | ⟨ts, t, ht⟩
    · rw [ht] at hXpos; simp at hXpos
    · rw [List.concat_eq_append] at ht
      have htne : t ≠ [] := hinv.terms_ne t (by rw [ht]; simp)
      rcases List.eq_nil_or_concat t with ht2 | ⟨t1, y, ht2⟩
      · exact absurd ht2 htne
      · rw [List.concat_eq_append] at ht2
        have hd := hinv.last_diff t (by rw [ht]; simp) y (by rw [ht2]; simp) x hx
        have hfl : a.terms.flatten = (ts.flatten ++ t1) ++ [y] := by
          rw [ht, ht2]; simp
        have hidx : k - a.buf.length - 1 = (ts.flatten ++ t1).length := by
          rw [← hX, hfl]
          simp only [List.length_append, List.length_singleton]
          omega
        have hget : ((ts.flatten ++ t1) ++ [y] ++ (a.buf ++ w.drop k)).getD
            (ts.flatten ++ t1).length 0 = y := by
          rw [getD_append_lt _ _ _ (by simp)]
          exact getD_append_length _ y
        rw [← hfl, ← List.append_assoc, hw, ← hidx] at hget
        rw [hget]; exact hd
  · rw [hsim.nb_eq, hinv.count]
    have := changes_le_append (w.take k) (w.drop k)
    rw [List.take_append_drop] at this
    omega

theorem term_shape (buf : List Nat) (T : Nat) (h : buf.length < T) :
    (buf ++ List.replicate (T - buf.length) 0).length = T ∧
      (buf ++ List.replicate (T - buf.length) 0).take buf.length = buf ∧
      (buf ++ List.replicate (T - buf.length) 0).drop buf.length =
        List.replicate (T - buf.length) 0 ∧
      (buf ++ List.replicate (T - buf.length) 0)[buf.length]? = some 0 := by
  refine ⟨?_, List.take_left _ _, List.drop_left _ _, ?_⟩
  · rw [List.length_append, List.length_replicate]; omega
  · exact getElem?_append_replicate buf _ _ (Nat.le_refl _) (by omega)

theorem strcpy_term (buf row : List Nat) (T : Nat) (h : buf.length < T) (hr : row.length = T)
    (hbuf : ∀ x ∈ buf, x ≠ 0) :
    ∃ row1, strcpy row (buf ++ List.replicate (T - buf.length) 0) = .ok row1 ∧
      cstr row1 = buf := by
  refine ⟨buf ++ 0 :: row.drop (buf.length + 1), ?_, cstr_append_zero _ _ hbuf⟩
  rw [replicate_pos_zero _ (by omega)]
  exact strcpy_ok buf hbuf row _ (by omega)

theorem wordAt_ne_zero {w : List Nat} (hcs : CString w) {k : Nat} (hk : k < w.length) :
    wordAt w k ≠ 0 := by
  unfold wordAt
  rw [List.getD_eq_getElem?_getD, List.getElem?_eq_getElem hk]
  exact hcs _ (List.getElem_mem hk)

theorem wordAt_length (w : List Nat) : wordAt w w.length = 0 :=
  List.getD_eq_default _ _ (Nat.le_refl _)

theorem fits_of_runs {c : Caps} {w : List Nat} (hv : ValidCaps c)
    (hT : w.length ≤ c.TERM_T - 1) (hB : w.length < c.BASE_T)
    (hN : (runs w).length ≤ c.NB_TERMS) : Fits c w := by
  obtain ⟨h1, _, h3⟩ := hv
  refine ⟨by omega, hB, ?_⟩
  by_cases hw : w = []
  · rw [hw]; simp only [changes]; omega
  · rw [← runs_length w hw]; exact hN

/-- C14 (sufficient precondition): the capacities being positive, as array
sizes of C are, on every word `w` with `length w ≤ TERM_T - 1`,
`length w < ` the capacity of `g.base` and a number of maximal runs at most
the rows of `g.terms`, `parse` returns (no access is out of bounds), and at
the start of every iteration and at loop exit the indices `i` of `g.base`,
`i+1` and `chain_length` of `term` and `g.nbterms` of `g.terms` are inside
their arrays, `term` holds a terminator inside the buffer, and `strcpy` of
`term` to any row succeeds. -/
theorem parse_in_bounds (c : Caps) (g0 : gramm) (w : List Nat)
    (hv : ValidCaps c) (hws : WellSized c g0) (hcs : CString w)
    (hT : w.length ≤ c.TERM_T - 1) (hB : w.length < c.BASE_T)
    (hN : (runs w).length ≤ c.NB_TERMS) :
    (∃ g, parse c g0 w = .ok g) ∧
      ∀ k, k ≤ w.length → ∃ s, stateAt c g0 w k = .ok s ∧ s.i = k ∧
        s.term.length = c.TERM_T ∧ s.g.base.length = c.BASE_T ∧
        s.g.terms.length = c.NB_TERMS ∧ (∀ row ∈ s.g.terms, row.length = c.TERM_T) ∧
        s.i < s.g.base.length ∧ (k < w.length → s.i + 1 < s.term.length) ∧
        s.chain_length < s.term.length ∧ s.g.nbterms < s.g.terms.length ∧
        s.term[s.chain_length]? = some 0 ∧
        ∀ row ∈ s.g.terms, ∃ row1, strcpy row s.term = .ok row1 := by
  have hfit := fits_of_runs hv hT hB hN
  refine ⟨?_, ?_⟩
  · obtain ⟨g, hg, _⟩ := parse_spec hws hfit hcs
    exact ⟨g, hg⟩
  · intro k hk
    obtain ⟨s0, s, buf, _, hst, _, hi, hcl, hbl, _, hterm, _, hb0, _, _, hnb, hbase, hrows,
      hrow⟩ := stateAt_facts hws hfit hcs k hk
    obtain ⟨hT1, hB1, _⟩ := hfit
    have hlt : buf.length < c.TERM_T := by omega
    obtain ⟨h1, _, _, h4⟩ := term_shape buf c.TERM_T hlt
    rw [← hterm] at h1 h4
    refine ⟨s, hst, hi, h1, hbase, hrows, hrow, by omega, fun _ => by omega, by omega,
      by omega, by rw [hcl]; exact h4, ?_⟩
    intro row hr
    obtain ⟨row1, h5, _⟩ := strcpy_term buf row c.TERM_T hlt (hrow row hr) hb0
    rw [← hterm] at h5
    exact ⟨row1, h5⟩

/-- C14 at the word `"ab1"` with `TERM_T = 4`, 5 characters in `g.base` and 2
rows. -/
theorem parse_in_bounds_witness :
    ValidCaps ⟨4, 5, 2⟩ ∧ WellSized ⟨4, 5, 2⟩ (blank ⟨4, 5, 2⟩ 255) ∧ CString [97, 98, 49] ∧
      [97, 98, 49].length ≤ Caps.TERM_T ⟨4, 5, 2⟩ - 1 ∧
      [97, 98, 49].length < Caps.BASE_T ⟨4, 5, 2⟩ ∧
      (runs [97, 98, 49]).length ≤ Caps.NB_TERMS ⟨4, 5, 2⟩ ∧
      ((∃ g, parse ⟨4, 5, 2⟩ (blank ⟨4, 5, 2⟩ 255) [97, 98, 49] = .ok g) ∧
        ∀ k, k ≤ [97, 98, 49].length →
          ∃ s, stateAt ⟨4, 5, 2⟩ (blank ⟨4, 5, 2⟩ 255) [97, 98, 49] k = .ok s ∧ s.i = k ∧
            s.term.length = Caps.TERM_T ⟨4, 5, 2⟩ ∧
            s.g.base.length = Caps.BASE_T ⟨4, 5, 2⟩ ∧
            s.g.terms.length = Caps.NB_TERMS ⟨4, 5, 2⟩ ∧
            (∀ row ∈ s.g.terms, row.length = Caps.TERM_T ⟨4, 5, 2⟩) ∧
            s.i < s.g.base.length ∧ (k < [97, 98, 49].length → s.i + 1 < s.term.length) ∧
            s.chain_length < s.term.length ∧ s.g.nbterms < s.g.terms.length ∧
            s.term[s.chain_length]? = some 0 ∧
            ∀ row ∈ s.g.terms, ∃ row1, strcpy row s.term = .ok row1) :=
  ⟨by decide, by decide, by decide, by decide, by decide, by decide,
    parse_in_bounds ⟨4, 5, 2⟩ (blank ⟨4, 5, 2⟩ 255) [97, 98, 49]
      (by decide) (by decide) (by decide) (by decide) (by decide) (by decide)⟩

/-- C17 (loop invariant of the term buffer): for a word of length less than
`TERM_T` that fits the other capacities, at the start of every iteration `k`
of the scan loop and at loop exit (`k = length w`): `i = k`,
`chain_length ≤ i`, `term[0 .. chain_length)` is the input slice
`w[i - chain_length .. i)`, all of one class and preceded in `w` by a character
of another class, `term[chain_length .. TERM_T)` is all zero bytes, and
`strcpy` of `term` to any row copies exactly these `chain_length`
characters. -/
theorem loop_invariant (c : Caps) (g0 : gramm) (w : List Nat)
    (hws : WellSized c g0) (hfit : Fits c w) (hcs : CString w) (k : Nat) (hk : k ≤ w.length) :
    ∃ s0 s, enter c g0 (List.replicate c.TERM_T 205) = .ok s0 ∧
      stateAt c g0 w k = .ok s ∧
      loop c w (w.length + 1) s0 = loop c w (w.length + 1 - k) s ∧
      (k < w.length → wordAt w s.i ≠ 0) ∧ (k = w.length → wordAt w s.i = 0) ∧
      s.i = k ∧ s.chain_length ≤ s.i ∧ s.term.length = c.TERM_T ∧
      s.term.take s.chain_length = (w.drop (s.i - s.chain_length)).take s.chain_length ∧
      (∀ x ∈ s.term.take s.chain_length, ∀ y ∈ s.term.take s.chain_length,
        classify x = classify y) ∧
      (s.chain_length < s.i → ∀ x ∈ s.term.take s.chain_length,
        classify (w.getD (s.i - s.chain_length - 1) 0) ≠ classify x) ∧
      s.term.drop s.chain_length = List.replicate (c.TERM_T - s.chain_length) 0 ∧
      ∀ row, row.length = c.TERM_T →
        ∃ row1, strcpy row s.term = .ok row1 ∧
          cstr row1 = (w.drop (s.i - s.chain_length)).take s.chain_length ∧
          (cstr row1).length = s.chain_length := by
  obtain ⟨s0, s, buf, he, hst, hloop, hi, hcl, hbl, hslice, hterm, hhom, hb0, _, hleft, _, _,
    _, _⟩ := stateAt_facts hws hfit hcs k hk
  obtain ⟨hT1, _, _⟩ := hfit
  have hlt : buf.length < c.TERM_T := by omega
  obtain ⟨h1, h2, h3, _⟩ := term_shape buf c.TERM_T hlt
  rw [← hterm] at h1 h2 h3
  refine ⟨s0, s, he, hst, hloop, ?_, ?_, hi, by omega, h1, ?_, ?_, ?_, ?_, ?_⟩
  · intro h; rw [hi]; exact wordAt_ne_zero hcs h
  · intro h; rw [hi, h]; exact wordAt_length w
  · rw [hcl, hi, h2]; exact hslice
  · rw [hcl, h2]; exact hhom
  · rw [hcl, hi, h2]; exact hleft
  · rw [hcl]; exact h3
  · intro row hr
    obtain ⟨row1, h5, h6⟩ := strcpy_term buf row c.TERM_T hlt hr hb0
    rw [← hterm] at h5
    refine ⟨row1, h5, ?_, ?_⟩
    · rw [h6, hcl, hi]; exact hslice
    · rw [h6, hcl]

/-- C17 at the start of iteration 2 of the word `"ab1"`, with `TERM_T = 4`, 5
characters in `g.base` and 2 rows. -/
theorem loop_invariant_witness :
    WellSized ⟨4, 5, 2⟩ (blank ⟨4, 5, 2⟩ 255) ∧ Fits ⟨4, 5, 2⟩ [97, 98, 49] ∧
      CString [97, 98, 49] ∧ 2 ≤ [97, 98, 49].length ∧
      ∃ s0 s, enter ⟨4, 5, 2⟩ (blank ⟨4, 5, 2⟩ 255)
          (List.replicate (Caps.TERM_T ⟨4, 5, 2⟩) 205) = .ok s0 ∧
        stateAt ⟨4, 5, 2⟩ (blank ⟨4, 5, 2⟩ 255) [97, 98, 49] 2 = .ok s ∧
        loop ⟨4, 5, 2⟩ [97, 98, 49] ([97, 98, 49].length + 1) s0 =
          loop ⟨4, 5, 2⟩ [97, 98, 49] ([97, 98, 49].length + 1 - 2) s ∧
        (2 < [97, 98, 49].length → wordAt [97, 98, 49] s.i ≠ 0) ∧
        (2 = [97, 98, 49].length → wordAt [97, 98, 49] s.i = 0) ∧
        s.i = 2 ∧ s.chain_length ≤ s.i ∧ s.term.length = Caps.TERM_T ⟨4, 5, 2⟩ ∧
        s.term.take s.chain_length =
          ([97, 98, 49].drop (s.i - s.chain_length)).take s.chain_length ∧
        (∀ x ∈ s.term.take s.chain_length, ∀ y ∈ s.term.take s.chain_length,
          classify x = classify y) ∧
        (s.chain_length < s.i → ∀ x ∈ s.term.take s.chain_length,
          classify ([97, 98, 49].getD (s.i - s.chain_length - 1) 0) ≠ classify x) ∧
        s.term.drop s.chain_length =
          List.replicate (Caps.TERM_T ⟨4, 5, 2⟩ - s.chain_length) 0 ∧
        ∀ row, row.length = Caps.TERM_T ⟨4, 5, 2⟩ →
          ∃ row1, strcpy row s.term = .ok row1 ∧
            cstr row1 = ([97, 98, 49].drop (s.i - s.chain_length)).take s.chain_length ∧
            (cstr row1).length = s.chain_length :=
  ⟨by decide, by decide, by decide, by decide,
    loop_invariant ⟨4, 5, 2⟩ (blank ⟨4, 5, 2⟩ 255) [97, 98, 49]
      (by decide) (by decide) (by decide) 2 (by decide)⟩

/-! ## Compositionality -/

theorem attach_scan :
    ∀ (v p : List Nat) (x : Nat) (a : Acc), Inv (p ++ [x]) a →
      (v.foldl specStep a).terms ++ [(v.foldl specStep a).buf] =
        attach x a.terms a.buf (runs v) := by
  intro v
  induction v with
  | nil => intro p x a _; rfl
  | cons b v ih =>
    intro p x a hinv
    rw [List.foldl_cons, ih (p ++ [x]) b (specStep a b) (hinv.step b), specStep_snoc hinv b,
      runs_cons]
    generalize runs v = R
    by_cases hx : classify x = classify b
    · rw [if_pos hx]
      rcases R with _ | ⟨_ | ⟨d, r⟩, rs⟩
      · simp [attach, hx]
      · simp [attach, hx]
      · by_cases hd : classify b = classify d
        · simp [attach, hx, hd]
        · simp [attach, hx, hd]
    · rw [if_neg hx]
      rcases R with _ | ⟨_ | ⟨d, r⟩, rs⟩
      · simp [attach, hx]
      · simp [attach, hx]
      · by_cases hd : classify b = classify d
        · have hxd : ¬ classify x = classify d := by rw [← hd]; exact hx
          simp [attach, hd, hxd]
        · simp [attach, hx, hd]

theorem spec_terms_append (p : List Nat) (x : Nat) (v : List Nat) :
    (specParse (p ++ [x] ++ v)).terms =
      attach x (specScan (p ++ [x])).terms (specScan (p ++ [x])).buf (runs v) := by
  have h := attach_scan v p x (specScan (p ++ [x])) (Inv.scan _)
  rw [← h]
  simp only [specParse, specScan, List.foldl_append]

theorem spec_terms_runs (v : List Nat) (hv : v ≠ []) : (specParse v).terms = runs v := by
  cases v with
  | nil => exact absurd rfl hv
  | cons b v =>
    have h := spec_terms_append [] b v
    simp only [List.nil_append, List.singleton_append] at h
    rw [h, runs_cons]
    have hs : specScan [b] = ⟨[tagOf b], [], [b]⟩ := by
      simp [specScan, specStep]
    rw [hs]
    generalize runs v = R
    rcases R with _ | ⟨_ | ⟨d, r⟩, rs⟩
    · simp [attach]
    · simp [attach]
    · by_cases hd : classify b = classify d
      · simp [attach, hd]
      · simp [attach, hd]

theorem changes_le_cons (a : Nat) (l : List Nat) : changes l ≤ changes (a :: l) := by
  cases l with
  | nil => simp [changes]
  | cons b l => rw [changes_cons_cons]; omega

theorem changes_le_append_left (u v : List Nat) : changes v ≤ changes (u ++ v) := by
  induction u with
  | nil => simp
  | cons a u ih => exact Nat.le_trans ih (changes_le_cons a (u ++ v))

theorem fits_append {c : Caps} {u v : List Nat} (h : Fits c (u ++ v)) :
    Fits c u ∧ Fits c v := by
  obtain ⟨hT, hB, hN⟩ := h
  rw [List.length_append] at hT hB
  have h1 := changes_le_append u v
  have h2 := changes_le_append_left u v
  exact ⟨⟨by omega, by omega, by omega⟩, ⟨by omega, by omega, by omega⟩⟩

/-- C16 (compositionality): for non-empty words `u` (last character `x`) and
`v` (first character `y`) such that `u ++ v` fits the buffers, the class string
of `u ++ v` is that of `u` followed by that of `v`; when `x` and `y` differ
in class the terms of `u ++ v` are the terms of `u` followed by the terms of
`v`; when they have the same class, the terms of `u ++ v` are the terms of
`u` without the last, then the last term of `u` followed by the first term of
`v` as a single term, then the terms of `v` without the first. -/
theorem parse_append (c : Caps) (g0 g1 g2 : gramm) (u v : List Nat) (x y : Nat)
    (h0 : WellSized c g0) (h1 : WellSized c g1) (h2 : WellSized c g2)
    (hfit : Fits c (u ++ v)) (hcs : CString (u ++ v))
    (hu : u.getLast? = some x) (hv : v.head? = some y) :
    ∃ g gu gv, parse c g0 (u ++ v) = .ok g ∧ parse c g1 u = .ok gu ∧
      parse c g2 v = .ok gv ∧
      cstr g.base = cstr gu.base ++ cstr gv.base ∧
      (classify x ≠ classify y → termsOf g = termsOf gu ++ termsOf gv) ∧
      (classify x = classify y →
        ∃ tu lu fv tv, termsOf gu = tu ++ [lu] ∧ termsOf gv = fv :: tv ∧
          termsOf g = tu ++ [lu ++ fv] ++ tv) := by
  obtain ⟨hfu, hfv⟩ := fits_append hfit
  have hcu : CString u := fun b hb => hcs b (List.mem_append_left _ hb)
  have hcv : CString v := fun b hb => hcs b (List.mem_append_right _ hb)
  obtain ⟨g, hg, _, ⟨tl, htl⟩, _, hterms⟩ := parse_spec h0 hfit hcs
  obtain ⟨gu, hgu, _, ⟨tlu, htlu⟩, _, htu⟩ := parse_spec h1 hfu hcu
  obtain ⟨gv, hgv, _, ⟨tlv, htlv⟩, _, htv⟩ := parse_spec h2 hfv hcv
  obtain ⟨p, hp⟩ := List.getLast?_eq_some_iff.1 hu
  obtain ⟨v1, hv1⟩ := List.head?_eq_some_iff.1 hv
  have hvne : v ≠ [] := by rw [hv1]; simp
  obtain ⟨r, rs, hr⟩ := runs_head y v1
  have hTv : termsOf gv = (y :: r) :: rs := by
    rw [htv, spec_terms_runs v hvne, hv1, hr]
  have hTu : termsOf gu = (specScan u).terms ++ [(specScan u).buf] := by
    rw [htu]; rfl
  have hT : termsOf g = attach x (specScan u).terms (specScan u).buf ((y :: r) :: rs) := by
    rw [hterms, hp, spec_terms_append, hv1, hr]
  refine ⟨g, gu, gv, hg, hgu, hgv, ?_, ?_, ?_⟩
  · rw [htl, htlu, htlv, cstr_classes, cstr_classes, cstr_classes, List.map_append]
  · intro hne
    rw [hT, hTu, hTv]
    simp [attach, hne]
  · intro heq
    refine ⟨(specScan u).terms, (specScan u).buf, y :: r, rs, hTu, hTv, ?_⟩
    rw [hT]
    simp [attach, heq]

/-- C16 at `u = "ab"`, `v = "c1"` (same class at the junction), with
`TERM_T = 5`, 6 characters in `g.base` and 3 rows. -/
theorem parse_append_witness :
    WellSized ⟨5, 6, 3⟩ (blank ⟨5, 6, 3⟩ 255) ∧ WellSized ⟨5, 6, 3⟩ (blank ⟨5, 6, 3⟩ 7) ∧
      WellSized ⟨5, 6, 3⟩ (blank ⟨5, 6, 3⟩ 0) ∧ Fits ⟨5, 6, 3⟩ ([97, 98] ++ [99, 49]) ∧
      CString ([97, 98] ++ [99, 49]) ∧ [97, 98].getLast? = some 98 ∧
      [99, 49].head? = some 99 ∧
      ∃ g gu gv, parse ⟨5, 6, 3⟩ (blank ⟨5, 6, 3⟩ 255) ([97, 98] ++ [99, 49]) = .ok g ∧
        parse ⟨5, 6, 3⟩ (blank ⟨5, 6, 3⟩ 7) [97, 98] = .ok gu ∧
        parse ⟨5, 6, 3⟩ (blank ⟨5, 6, 3⟩ 0) [99, 49] = .ok gv ∧
        cstr g.base = cstr gu.base ++ cstr gv.base ∧
        (classify 98 ≠ classify 99 → termsOf g = termsOf gu ++ termsOf gv) ∧
        (classify 98 = classify 99 →
          ∃ tu lu fv tv, termsOf gu = tu ++ [lu] ∧ termsOf gv = fv :: tv ∧
            termsOf g = tu ++ [lu ++ fv] ++ tv) :=
  ⟨by decide, by decide, by decide, by decide, by decide, by decide, by decide,
    parse_append ⟨5, 6, 3⟩ (blank ⟨5, 6, 3⟩ 255) (blank ⟨5, 6, 3⟩ 7) (blank ⟨5, 6, 3⟩ 0)
      [97, 98] [99, 49] 98 99 (by decide) (by decide) (by decide) (by decide) (by decide)
      (by decide) (by decide)⟩

/-! ## A word longer than the term buffer -/

theorem strcpy_no_terminator (src : List Nat) (h : ∀ x ∈ src, x ≠ 0) :
    ∀ dst, strcpy dst src = .error .oob := by
  induction src with
  | nil => intro dst; cases dst <;> rfl
  | cons b src ih =>
    intro dst
    cases dst with
    | nil => rfl
    | cons d dst =>
      have hb : b ≠ 0 := h b (by simp)
      have := ih (fun x hx => h x (by simp [hx])) dst
      simp [strcpy, hb, this]

theorem mono_steps {c : Caps} {g0 : gramm} {K : Nat} {w pre rest : List Nat} {ch : Nat}
    {s : St} (hw : w = pre ++ ch :: rest) (hK : classify ch = K) (hB : pre.length < c.BASE_T)
    (hm : Mono c g0 K s pre) :
    wordAt w s.i = ch ∧ store s.g.base s.i (classify ch) = .ok (s.g.base.set s.i K) ∧
      classChange (s.g.base.set s.i K) s.i = .ok false := by
  have hi := hm.i_eq
  have hiB : s.i < s.g.base.length := by rw [hm.base_len, hi]; exact hB
  refine ⟨?_, ?_, ?_⟩
  · rw [hi, hw]; unfold wordAt
    rw [List.getD_eq_getElem?_getD, List.getElem?_append_right (Nat.le_refl _)]
    simp
  · rw [store_ok _ hiB, hK]
  · unfold classChange
    by_cases h0 : 0 < s.i
    · have hcur : (s.g.base.set s.i K)[s.i]? = some K := by simp [hiB]
      have hprev : (s.g.base.set s.i K)[s.i - 1]? = some K := by
        rw [List.getElem?_set_ne (by omega), hi]
        exact hm.base_last (by omega)
      rw [if_pos h0]
      simp [bind, Except.bind, load_ok hcur, load_ok hprev, pure, Except.pure]
    · rw [if_neg h0]; rfl

theorem mono_body {c : Caps} {g0 : gramm} {K : Nat} {w pre rest : List Nat} {ch : Nat}
    {s : St} (hw : w = pre ++ ch :: rest) (hK : classify ch = K) (hB : pre.length < c.BASE_T)
    (hT : pre.length < c.TERM_T) (hm : Mono c g0 K s pre) :
    ∃ s1, body c w s = .ok s1 ∧ Mono c g0 K s1 (pre ++ [ch]) := by
  obtain ⟨h1, h2, h3⟩ := mono_steps hw hK hB hm
  have hiB : s.i < s.g.base.length := by rw [hm.base_len, hm.i_eq]; exact hB
  have hst : store s.term s.chain_length ch =
      .ok (pre ++ ch :: List.replicate (c.TERM_T - pre.length - 1) 0) := by
    have hl : s.term.length = c.TERM_T := by
      rw [hm.term_eq]; simp only [List.length_append, List.length_replicate]; omega
    rw [store_ok _ (by rw [hm.chain_eq, hl]; exact hT), hm.chain_eq, hm.term_eq,
      replicate_pos_zero _ (by omega), set_length_append]
  refine ⟨{ g := { s.g with base := s.g.base.set s.i K }, i := s.i + 1,
            chain_length := s.chain_length + 1,
            term := pre ++ ch :: List.replicate (c.TERM_T - pre.length - 1) 0 }, ?_, ?_⟩
  · unfold body
    simp only [h1, h2, h3, bind, Except.bind, hst, pure, Except.pure]
    rfl
  · constructor
    · simp only [List.length_append, List.length_singleton]; rw [hm.i_eq]
    · simp only [List.length_append, List.length_singleton]; rw [hm.chain_eq]
    · simp only [List.length_append, List.length_singleton, List.append_assoc,
        List.singleton_append]
      rw [Nat.sub_add_eq]
    · simp only [List.length_set]; exact hm.base_len
    · intro _
      simp only [List.length_append, List.length_singleton, Nat.add_sub_cancel]
      rw [← hm.i_eq]
      simp [hiB]
    · exact hm.terms_eq
    · exact hm.nb_eq

theorem mono_body_full {c : Caps} {g0 : gramm} {K : Nat} {w pre rest : List Nat} {ch : Nat}
    {s : St} (hw : w = pre ++ ch :: rest) (hK : classify ch = K) (hB : pre.length < c.BASE_T)
    (hT : pre.length = c.TERM_T) (hm : Mono c g0 K s pre) :
    store s.term s.chain_length (wordAt w s.i) = .error .oob ∧ body c w s = .error .oob := by
  obtain ⟨h1, h2, h3⟩ := mono_steps hw hK hB hm
  have hst : store s.term s.chain_length ch = .error .oob := by
    have hl : s.term.length = c.TERM_T := by
      rw [hm.term_eq]; simp only [List.length_append, List.length_replicate]; omega
    unfold store
    rw [if_neg (by rw [hm.chain_eq, hl]; omega)]
  refine ⟨by rw [h1]; exact hst, ?_⟩
  unfold body
  simp only [h1, h2, h3, bind, Except.bind, hst, pure, Except.pure]
  rfl

theorem mono_iterate {c : Caps} {g0 : gramm} {K : Nat} {w : List Nat} (hcs : CString w)
    (hK : ∀ x ∈ w, classify x = K) :
    ∀ (mid pre : List Nat) (s : St) (rest : List Nat),
      w = pre ++ mid ++ rest → Mono c g0 K s pre →
      (pre ++ mid).length ≤ c.TERM_T → (pre ++ mid).length ≤ c.BASE_T →
      ∃ s1, iterate c w mid.length s = .ok s1 ∧ Mono c g0 K s1 (pre ++ mid) ∧
        ∀ f, loop c w (mid.length + f) s = loop c w f s1 := by
  intro mid
  induction mid with
  | nil =>
    intro pre s rest _ hm _ _
    exact ⟨s, rfl, by simpa using hm, fun f => by simp⟩
  | cons ch mid ih =>
    intro pre s rest hw hm hT hB
    have hw1 : w = pre ++ ch :: (mid ++ rest) := by rw [hw]; simp
    have hmem : ch ∈ w := by rw [hw1]; simp
    have hne : ch ≠ 0 := hcs ch hmem
    simp only [List.length_append, List.length_cons] at hT hB
    obtain ⟨hch, _, _⟩ := mono_steps hw1 (hK ch hmem) (by omega) hm
    obtain ⟨s1, hb, hm1⟩ := mono_body hw1 (hK ch hmem) (by omega) (by omega) hm
    obtain ⟨s2, hit, hm2, hloop⟩ := ih (pre ++ [ch]) s1 rest (by rw [hw]; simp) hm1
      (by simp only [List.length_append, List.length_singleton]; omega)
      (by simp only [List.length_append, List.length_singleton]; omega)
    refine ⟨s2, ?_, by simpa using hm2, ?_⟩
    · simp only [List.length_cons, iterate, hb, hit]
    · intro f
      have e : (ch :: mid).length + f = (mid.length + f) + 1 := by
        simp only [List.length_cons]; omega
      rw [e]
      conv => lhs; unfold loop
      simp only [hch, hb, ← hloop f]
      simp [hne]

theorem mono_enter {c : Caps} {g0 : gramm} (K : Nat) (hws : WellSized c g0) :
    ∃ s0, enter c g0 (List.replicate c.TERM_T 205) = .ok s0 ∧ Mono c g0 K s0 [] := by
  obtain ⟨h1, _, _⟩ := hws
  have hm : memset (List.replicate c.TERM_T 205) 0 c.TERM_T = .ok (List.replicate c.TERM_T 0) := by
    unfold memset
    rw [if_pos (by simp), List.drop_of_length_le (by simp), List.append_nil]
  refine ⟨{ g := { g0 with nbterms := 0 }, i := 0, chain_length := 0,
            term := List.replicate c.TERM_T 0 },
    by simp only [enter, bind, Except.bind, hm, pure, Except.pure], ?_⟩
  constructor <;> simp [h1]

/-- C13 (no bounds checking): whatever `TERM_T` is, on any word of `TERM_T` or
more characters of a single class (the other buffers being large enough for
it) `parse` goes out of bounds, and it does so on the `term` buffer: the first
`TERM_T` iterations run in bounds and fill `term` without a terminator; then
either the next iteration writes `term[chain_length]` with
`chain_length = TERM_T`, or, the word having exactly `TERM_T` characters, the
final `strcpy` reads `term` past its end. -/
theorem parse_term_overflow (c : Caps) (g0 : gramm) (w : List Nat) (K : Nat)
    (hws : WellSized c g0) (hcs : CString w) (hK : ∀ x ∈ w, classify x = K)
    (hT : c.TERM_T ≤ w.length) (hB : w.length < c.BASE_T) (hN : 0 < c.NB_TERMS) :
    parse c g0 w = .error .oob ∧
      ∃ s, stateAt c g0 w c.TERM_T = .ok s ∧ s.i = c.TERM_T ∧ s.chain_length = c.TERM_T ∧
        s.term.length = c.TERM_T ∧ s.term = w.take c.TERM_T ∧
        (c.TERM_T < w.length →
          store s.term s.chain_length (wordAt w s.i) = .error .oob ∧
            body c w s = .error .oob) ∧
        (c.TERM_T = w.length → ∀ row, strcpy row s.term = .error .oob) := by
  obtain ⟨s0, he, hm0⟩ := mono_enter (c := c) K hws
  have hlen : (w.take c.TERM_T).length = c.TERM_T := by simp [hT]
  obtain ⟨s, hit, hm, hloop⟩ := mono_iterate hcs hK (w.take c.TERM_T) [] s0
    (w.drop c.TERM_T) (by simp) hm0 (by simp) (by simp; omega)
  rw [hlen] at hit hloop
  simp only [List.nil_append] at hm
  have hi : s.i = c.TERM_T := by rw [hm.i_eq, hlen]
  have hterm : s.term = w.take c.TERM_T := by
    rw [hm.term_eq, hlen, Nat.sub_self]; simp
  have hfull : c.TERM_T < w.length →
      store s.term s.chain_length (wordAt w s.i) = .error .oob ∧
        body c w s = .error .oob := by
    intro hlt
    have hw : w = w.take c.TERM_T ++ w[c.TERM_T] :: w.drop (c.TERM_T + 1) := by
      rw [← List.drop_eq_getElem_cons hlt, List.take_append_drop]
    exact mono_body_full hw (hK _ (List.getElem_mem hlt)) (by rw [hlen]; omega) hlen hm
  have hcopy : ∀ row, strcpy row s.term = .error .oob := by
    intro row
    rw [hterm]
    exact strcpy_no_terminator _ (fun x hx => hcs x (List.mem_of_mem_take hx)) row
  refine ⟨?_, s, ?_, hi, by rw [hm.chain_eq, hlen], by rw [hterm, hlen], hterm, hfull,
    fun _ => hcopy⟩
  · have hl := hloop (w.length + 1 - c.TERM_T)
    rw [show c.TERM_T + (w.length + 1 - c.TERM_T) = w.length + 1 by omega] at hl
    unfold parse
    simp only [bind, Except.bind, he, hl]
    rcases Nat.lt_or_ge c.TERM_T w.length with hlt | hge
    · obtain ⟨_, hb⟩ := hfull hlt
      have hg : wordAt w s.i ≠ 0 := by rw [hi]; exact wordAt_ne_zero hcs hlt
      rw [show w.length + 1 - c.TERM_T = (w.length - c.TERM_T) + 1 by omega]
      unfold loop
      simp [hg, hb]
    · have heq : c.TERM_T = w.length := by omega
      have hg : wordAt w s.i = 0 := by rw [hi, heq]; exact wordAt_length w
      rw [show w.length + 1 - c.TERM_T = 0 + 1 by omega]
      unfold loop
      simp only [hg]
      have hlt0 : 0 < g0.terms.length := by rw [hws.2.1]; exact hN
      have hrow : s.g.terms[s.g.nbterms]? = some g0.terms[0] := by
        rw [hm.terms_eq, hm.nb_eq]
        exact List.getElem?_eq_getElem hlt0
      simp [finish, bind, Except.bind, loadRow_ok hrow, hcopy]
  · simp only [stateAt, bind, Except.bind, he, hit]

/-- C13 at the word `"abc"` with `TERM_T = 2`, 8 characters in `g.base` and 2
rows. -/
theorem parse_term_overflow_witness :
    WellSized ⟨2, 8, 2⟩ (blank ⟨2, 8, 2⟩ 255) ∧ CString [97, 98, 99] ∧
      (∀ x ∈ [97, 98, 99], classify x = 76) ∧
      Caps.TERM_T ⟨2, 8, 2⟩ ≤ [97, 98, 99].length ∧
      [97, 98, 99].length < Caps.BASE_T ⟨2, 8, 2⟩ ∧ 0 < Caps.NB_TERMS ⟨2, 8, 2⟩ ∧
      (parse ⟨2, 8, 2⟩ (blank ⟨2, 8, 2⟩ 255) [97, 98, 99] = .error .oob ∧
        ∃ s, stateAt ⟨2, 8, 2⟩ (blank ⟨2, 8, 2⟩ 255) [97, 98, 99] (Caps.TERM_T ⟨2, 8, 2⟩) =
            .ok s ∧
          s.i = Caps.TERM_T ⟨2, 8, 2⟩ ∧ s.chain_length = Caps.TERM_T ⟨2, 8, 2⟩ ∧
          s.term.length = Caps.TERM_T ⟨2, 8, 2⟩ ∧
          s.term = [97, 98, 99].take (Caps.TERM_T ⟨2, 8, 2⟩) ∧
          (Caps.TERM_T ⟨2, 8, 2⟩ < [97, 98, 99].length →
            store s.term s.chain_length (wordAt [97, 98, 99] s.i) = .error .oob ∧
              body ⟨2, 8, 2⟩ [97, 98, 99] s = .error .oob) ∧
          (Caps.TERM_T ⟨2, 8, 2⟩ = [97, 98, 99].length →
            ∀ row, strcpy row s.term = .error .oob)) :=
  ⟨by decide, by decide, by decide, by decide, by decide, by decide,
    parse_term_overflow ⟨2, 8, 2⟩ (blank ⟨2, 8, 2⟩ 255) [97, 98, 99] 76
      (by decide) (by decide) (by decide) (by decide) (by decide) (by decide)⟩

end PCFG
